import Mathlib

/-!
A shallow embedding of `myptrace.h`.

The tracer's memory readers (`get_string_data`, `get_string_data_unbounded`),
its register snapshot (`get_regs`, one definition per preprocessor
configuration), its syscall dispatcher (`interpret_syscall`) and its
capability probe (`test_ptrace_setoptions_for_all`) are embedded as Lean
functions over explicit state, and the properties of the specification are
stated and settled against them.

Conventions of the embedding:

* C `int`, `long` and pointer offsets are mathematical integers (`Int`);
  a narrowing conversion is written out (`toInt32`), a widening one is the
  identity. `/` and `%` on `int` are C's truncating `Int.tdiv`, `Int.tmod`.
* The tracee's address space is a total map `Int → Byte`. The word returned
  by `PTRACE_PEEKDATA` at address `a` is represented by its byte view, the
  view the code takes through the union `u`: byte `k` of the word is the
  tracee byte at `a + k`.
* The destination `char *str` is a map from the offset relative to `str` to
  the byte stored there, together with a log of the offsets stored to and a
  log of the addresses peeked.
* The probe runs against a finite list of answers of the outside world, one
  per pass through its loop (what `wait` and the `ptrace` requests return),
  and logs the calls it makes; a run that uses up the answers is reported
  as still looping.
-/

namespace Myptrace

/-! ## Machine data -/

/-- A `char`: one byte. -/
abbrev Byte := Fin 256

/-- The conversion of an integer value to a 32-bit `int` (two's complement,
reduction modulo `2^32`), as in `int syscall_no = reg_array[0];` and
`err = ptrace(...)`. The identity on values that an `int` can hold. -/
def toInt32 (x : Int) : Int := (x + 2 ^ 31) % 2 ^ 32 - 2 ^ 31

/-- The conversion of an `unsigned long long` (64 bits) to `long` (64 bits),
as in `(long)my_regs.orig_rax`: the same bit pattern, read as signed. -/
def toInt64 (x : Nat) : Int := ((x : Int) + 2 ^ 63) % 2 ^ 64 - 2 ^ 63

/-! ## Memory reader -/

/-- What a call on the memory reader can observe and change: the bytes of the
destination by offset from `str`, the offsets stored to (in program order),
and the tracee addresses handed to `PTRACE_PEEKDATA` (in program order). -/
structure Tracer where
  str : Int → Byte
  written : List Int
  peeked : List Int

/-- The locals `i` and `laddr` (as an offset from `str`) together with the
observable state, as they stand between two statements. -/
structure Locals where
  i : Int
  laddr : Int
  tr : Tracer

/-- The statement `*(str + off) = b`. -/
def store (s : Tracer) (off : Int) (b : Byte) : Tracer :=
  { s with str := fun o => if o = off then b else s.str o,
           written := s.written ++ [off] }

/-- The call `ptrace(PTRACE_PEEKDATA, child, a, NULL)` followed by the
assignment to `data.val`: logs the address and yields `data.chars`. -/
def PTRACE_PEEKDATA (child : Int → Byte) (a : Int) (s : Tracer) :
    (Nat → Byte) × Tracer :=
  (fun k => child (a + (k : Int)), { s with peeked := s.peeked ++ [a] })

/-- The call `memcpy(str + laddr, chars, n)`: stores `chars[0..n-1]` at
offsets `laddr .. laddr + n - 1`, lowest first. -/
def memcpy (s : Tracer) (laddr : Int) (chars : Nat → Byte) : Nat → Tracer
  | 0 => s
  | n + 1 => store (memcpy s laddr chars n) (laddr + (n : Int)) (chars n)

/-- The loop `while (i < j) { peek; memcpy(laddr, data.chars, long_size);
laddr += long_size; i++; }` of `get_string_data`, run for the `n = j - i`
iterations that remain. -/
def copyWords (long_size : Nat) (child : Int → Byte) (addr : Int) :
    Nat → Locals → Locals
  | 0, l => l
  | n + 1, l =>
    let data := PTRACE_PEEKDATA child (l.i * (long_size : Int) + addr) l.tr
    copyWords long_size child addr n
      { i := l.i + 1,
        laddr := l.laddr + (long_size : Int),
        tr := memcpy data.2 l.laddr data.1 long_size }

/-- The function `get_string_data(child, addr, str, len)` with
`long_size = sizeof(long)`; `s` is the state on entry. -/
def get_string_data (long_size : Nat) (child : Int → Byte) (addr : Int)
    (s : Tracer) (len : Int) : Tracer :=
  let j := Int.tdiv len (long_size : Int)
  let l := copyWords long_size child addr j.toNat { i := 0, laddr := 0, tr := s }
  let j := Int.tmod len (long_size : Int)
  let l :=
    if j ≠ 0 then
      let data := PTRACE_PEEKDATA child (l.i * (long_size : Int) + addr) l.tr
      { l with laddr := l.laddr + j,
               tr := memcpy data.2 l.laddr data.1 long_size }
    else l
  store l.tr (l.laddr + len) 0

/-- The scan `for (k = 0; k < n; k++) if (data.chars[k] == 0) ...` from
index `k` with `fuel = n - k` steps left: the index at which the body's `if`
fires, if it does. -/
def scanFrom (chars : Nat → Byte) : Nat → Nat → Option Nat
  | 0, _ => none
  | fuel + 1, k => if chars k = 0 then some k else scanFrom chars fuel (k + 1)

/-- The first-zero scan over `chars[0..n-1]`. -/
def scanZero (chars : Nat → Byte) (n : Nat) : Option Nat := scanFrom chars n 0

/-- The loop `while (i < j) { ... }` of `get_string_data_unbounded`, run for
the `n = j - i` iterations that remain: `Except.error t` is the early
`return 0` with final state `t`, `Except.ok l` is falling out of the loop. -/
def scanWords (long_size : Nat) (child : Int → Byte) (addr : Int) :
    Nat → Locals → Except Tracer Locals
  | 0, l => .ok l
  | n + 1, l =>
    let data := PTRACE_PEEKDATA child (l.i * (long_size : Int) + addr) l.tr
    match scanZero data.1 long_size with
    | some k => .error (memcpy data.2 l.laddr data.1 (k + 1))
    | none =>
      scanWords long_size child addr n
        { i := l.i + 1,
          laddr := l.laddr + (long_size : Int),
          tr := memcpy data.2 l.laddr data.1 long_size }

/-- The function `get_string_data_unbounded(child, addr, str, len)`: the
returned status (`0` terminator found, `-1` not found) and the final state. -/
def get_string_data_unbounded (long_size : Nat) (child : Int → Byte)
    (addr : Int) (s : Tracer) (len : Int) : Int × Tracer :=
  let j := Int.tdiv len (long_size : Int)
  match scanWords long_size child addr j.toNat { i := 0, laddr := 0, tr := s } with
  | .error t => (0, t)
  | .ok l =>
    let j := Int.tmod len (long_size : Int)
    if j ≠ 0 then
      let data := PTRACE_PEEKDATA child (l.i * (long_size : Int) + addr) l.tr
      match scanZero data.1 j.toNat with
      | some k => (0, memcpy data.2 l.laddr data.1 (k + 1))
      | none => (-1, memcpy data.2 l.laddr data.1 long_size)
    else (-1, l.tr)

/-- A state with the destination filled with byte `b` and empty logs. -/
def Tracer.fresh (b : Byte) : Tracer := { str := fun _ => b, written := [], peeked := [] }

/-- A tracee memory holding the bytes of `bs` from address `base` on and the
byte `fill` everywhere else. -/
def memOf (base : Int) (bs : List Byte) (fill : Byte) : Int → Byte :=
  fun a => if base ≤ a then bs.getD (a - base).toNat fill else fill

/-! ## Register snapshot -/

/-- The register file `struct user_regs_struct` of `<sys/user.h>` on 32-bit
x86: seventeen `long` fields. -/
structure user_regs_struct_i386 where
  ebx : Int
  ecx : Int
  edx : Int
  esi : Int
  edi : Int
  ebp : Int
  eax : Int
  xds : Int
  xes : Int
  xfs : Int
  xgs : Int
  orig_eax : Int
  eip : Int
  xcs : Int
  eflags : Int
  esp : Int
  xss : Int

/-- The register file `struct user_regs_struct` of `<sys/user.h>` on 64-bit
x86: `unsigned long long` fields, each a natural number below `2^64`. -/
structure user_regs_struct_x86_64 where
  r15 : Nat
  r14 : Nat
  r13 : Nat
  r12 : Nat
  rbp : Nat
  rbx : Nat
  r11 : Nat
  r10 : Nat
  r9 : Nat
  r8 : Nat
  rax : Nat
  rcx : Nat
  rdx : Nat
  rsi : Nat
  rdi : Nat
  orig_rax : Nat
  rip : Nat
  cs : Nat
  eflags : Nat
  rsp : Nat
  ss : Nat
  fs_base : Nat
  gs_base : Nat
  ds : Nat
  es : Nat
  fs : Nat
  gs : Nat

/-- The register file `struct arm_pt_regs` on 32-bit ARM, by the accessor
names `ARM_r0 .. ARM_ORIG_r0` the code uses (the declaration comes from
`defs.h`). -/
structure arm_pt_regs where
  ARM_r0 : Int
  ARM_r1 : Int
  ARM_r2 : Int
  ARM_r3 : Int
  ARM_r4 : Int
  ARM_r5 : Int
  ARM_r6 : Int
  ARM_r7 : Int
  ARM_r8 : Int
  ARM_r9 : Int
  ARM_r10 : Int
  ARM_fp : Int
  ARM_ip : Int
  ARM_sp : Int
  ARM_lr : Int
  ARM_pc : Int
  ARM_cpsr : Int
  ARM_ORIG_r0 : Int

/-- The assignment `buf[k] = v` on a `long *buf`. -/
def setSlot (buf : Nat → Int) (k : Nat) (v : Int) : Nat → Int :=
  fun n => if n = k then v else buf n

/-- The function `get_regs(child, buf)` compiled with `__i386__`. The call
`ptrace(PTRACE_GETREGS, child, 0, &my_regs)` is given by its outcome: the
`long` it returns and the contents of `my_regs` after it. The result is the
returned status and the caller's vector after the call. -/
def get_regs_i386 (ptrace_GETREGS : Int) (my_regs : user_regs_struct_i386)
    (buf : Nat → Int) : Int × (Nat → Int) :=
  let err := toInt32 ptrace_GETREGS
  if err < 0 then (err, buf)
  else
    let buf := setSlot buf 0 my_regs.orig_eax
    let buf := setSlot buf 1 my_regs.ebx
    let buf := setSlot buf 2 my_regs.ecx
    let buf := setSlot buf 3 my_regs.edx
    let buf := setSlot buf 4 my_regs.esi
    let buf := setSlot buf 5 my_regs.edi
    let buf := setSlot buf 6 my_regs.ebp
    let buf := setSlot buf 7 my_regs.eax
    (err, buf)

/-- The function `get_regs(child, buf)` compiled with `__x86_64__`. -/
def get_regs_x86_64 (ptrace_GETREGS : Int) (my_regs : user_regs_struct_x86_64)
    (buf : Nat → Int) : Int × (Nat → Int) :=
  let err := toInt32 ptrace_GETREGS
  if err < 0 then (err, buf)
  else
    let buf := setSlot buf 0 (toInt64 my_regs.orig_rax)
    let buf := setSlot buf 1 (toInt64 my_regs.rbx)
    let buf := setSlot buf 2 (toInt64 my_regs.rcx)
    let buf := setSlot buf 3 (toInt64 my_regs.rdx)
    let buf := setSlot buf 4 (toInt64 my_regs.rsi)
    let buf := setSlot buf 5 (toInt64 my_regs.rdi)
    let buf := setSlot buf 6 (toInt64 my_regs.rbp)
    let buf := setSlot buf 7 (toInt64 my_regs.rax)
    (err, buf)

/-- The function `get_regs(child, buf)` compiled for ARM (the `#else`
branch). -/
def get_regs_arm (ptrace_GETREGS : Int) (my_regs : arm_pt_regs)
    (buf : Nat → Int) : Int × (Nat → Int) :=
  let err := toInt32 ptrace_GETREGS
  if err < 0 then (err, buf)
  else
    let buf := setSlot buf 0 my_regs.ARM_r7
    let buf := setSlot buf 1 my_regs.ARM_r0
    let buf := setSlot buf 2 my_regs.ARM_r1
    let buf := setSlot buf 3 my_regs.ARM_r2
    let buf := setSlot buf 4 my_regs.ARM_r3
    let buf := setSlot buf 5 my_regs.ARM_r4
    let buf := setSlot buf 6 my_regs.ARM_r5
    let buf := setSlot buf 7 my_regs.ARM_r0
    (err, buf)

/-- A 32-bit x86 register file with pairwise distinct field values. -/
def sample_i386 : user_regs_struct_i386 :=
  { ebx := 11, ecx := 12, edx := 13, esi := 14, edi := 15, ebp := 16, eax := 17,
    xds := 18, xes := 19, xfs := 20, xgs := 21, orig_eax := 4, eip := 23, xcs := 24,
    eflags := 25, esp := 26, xss := 27 }

/-- A 64-bit x86 register file with pairwise distinct field values. -/
def sample_x86_64 : user_regs_struct_x86_64 :=
  { r15 := 31, r14 := 32, r13 := 33, r12 := 34, rbp := 35, rbx := 36, r11 := 37,
    r10 := 38, r9 := 39, r8 := 40, rax := 41, rcx := 42, rdx := 43, rsi := 44,
    rdi := 45, orig_rax := 1, rip := 47, cs := 48, eflags := 49, rsp := 50, ss := 51,
    fs_base := 52, gs_base := 53, ds := 54, es := 55, fs := 56, gs := 57 }

/-- A 32-bit ARM register file with pairwise distinct field values. -/
def sample_arm : arm_pt_regs :=
  { ARM_r0 := 60, ARM_r1 := 61, ARM_r2 := 62, ARM_r3 := 63, ARM_r4 := 64, ARM_r5 := 65,
    ARM_r6 := 66, ARM_r7 := 4, ARM_r8 := 68, ARM_r9 := 69, ARM_r10 := 70, ARM_fp := 71,
    ARM_ip := 72, ARM_sp := 73, ARM_lr := 74, ARM_pc := 75, ARM_cpsr := 76,
    ARM_ORIG_r0 := 77 }

/-! ## Syscall interpreter -/

/-- The constants `SYS_write`, `SYS_read`, `SYS_open` of `<sys/syscall.h>`
for the target the tracer is compiled for. -/
structure SyscallIds where
  SYS_write : Int
  SYS_read : Int
  SYS_open : Int

/-- The ids on 64-bit x86. -/
def SyscallIds.x86_64 : SyscallIds := { SYS_write := 1, SYS_read := 0, SYS_open := 2 }

/-- The ids on 32-bit x86 and on ARM EABI. -/
def SyscallIds.ilp32 : SyscallIds := { SYS_write := 4, SYS_read := 3, SYS_open := 5 }

/-- A handler `void interpret_xxx(long *reg_array, pid_t child, char *buf,
unsigned int len)` of `syscall_interpret.h`, by what it leaves in `buf`. -/
abbrev Handler := (Nat → Int) → Int → (Nat → Char) → Nat → (Nat → Char)

/-- The three handlers `interpret_syscall` dispatches to. -/
structure Handlers where
  interpret_write : Handler
  interpret_read : Handler
  interpret_open : Handler

/-- The `%d` conversion of an `int`: its decimal digits, after a `-` when it
is negative. -/
def decimal (n : Int) : List Char := (toString n).toList

/-- The call `snprintf(buf, size, ...)` whose formatted text is `text`: with
`size = 0` nothing is stored; otherwise the first `min (strlen text)
(size - 1)` characters are stored from offset 0 and a NUL after them. -/
def snprintf (buf : Nat → Char) (size : Nat) (text : List Char) : Nat → Char :=
  if size = 0 then buf
  else
    fun k =>
      if k < min text.length (size - 1) then text.getD k (Char.ofNat 0)
      else if k = min text.length (size - 1) then Char.ofNat 0
      else buf k

/-- The function `interpret_syscall(reg_array, child, buf, len)`: the
returned status and the contents of `buf` after the call. -/
def interpret_syscall (ids : SyscallIds) (h : Handlers) (reg_array : Nat → Int)
    (child : Int) (buf : Nat → Char) (len : Nat) : Int × (Nat → Char) :=
  let syscall_no := toInt32 (reg_array 0)
  if syscall_no = ids.SYS_write then (0, h.interpret_write reg_array child buf len)
  else if syscall_no = ids.SYS_read then (0, h.interpret_read reg_array child buf len)
  else if syscall_no = ids.SYS_open then (0, h.interpret_open reg_array child buf len)
  else (0, snprintf buf len ("sys call - ".toList ++ decimal syscall_no))

/-- The first `n` characters of a buffer. -/
def firstChars (buf : Nat → Char) (n : Nat) : List Char := (List.range n).map buf

/-- The arm of `switch (syscall_no)` that `interpret_syscall` runs; the
`default` arm carries the number it prints. -/
inductive SwitchArm where
  | case_SYS_write
  | case_SYS_read
  | case_SYS_open
  | case_default (syscall_no : Int)
  deriving DecidableEq

/-- The selection made by `int syscall_no = reg_array[0]; switch (syscall_no)`
in `interpret_syscall`. -/
def switchArm (ids : SyscallIds) (reg_array : Nat → Int) : SwitchArm :=
  let syscall_no := toInt32 (reg_array 0)
  if syscall_no = ids.SYS_write then SwitchArm.case_SYS_write
  else if syscall_no = ids.SYS_read then SwitchArm.case_SYS_read
  else if syscall_no = ids.SYS_open then SwitchArm.case_SYS_open
  else SwitchArm.case_default syscall_no

/-! ## Capability probe -/

/-- Linux signal and error numbers used by the probe (`<signal.h>`,
`<errno.h>`; the same on x86 and ARM). -/
def SIGTRAP : Int := 5

/-- The signal `SIGKILL`. -/
def SIGKILL : Int := 9

/-- The signal `SIGSTOP`. -/
def SIGSTOP : Int := 19

/-- The error `EINTR`. -/
def EINTR : Int := 4

/-- The error `EIO`. -/
def EIO : Int := 5

/-- The error `ECHILD`. -/
def ECHILD : Int := 10

/-- The error `EINVAL`. -/
def EINVAL : Int := 22

/-- The macro `WTERMSIG(status)` of `<sys/wait.h>`: `status & 0x7f`. -/
def WTERMSIG (status : Int) : Int := status % 128

/-- The macro `WEXITSTATUS(status)`: `(status & 0xff00) >> 8`. -/
def WEXITSTATUS (status : Int) : Int := (status / 256) % 256

/-- The macro `WSTOPSIG(status)`: the same bits as `WEXITSTATUS`. -/
def WSTOPSIG (status : Int) : Int := WEXITSTATUS status

/-- The macro `WIFEXITED(status)`: `WTERMSIG(status) == 0`. -/
def WIFEXITED (status : Int) : Bool := decide (WTERMSIG status = 0)

/-- The macro `WIFSIGNALED(status)`:
`((signed char) ((status & 0x7f) + 1) >> 1) > 0`. -/
def WIFSIGNALED (status : Int) : Bool :=
  let x := status % 128 + 1
  let sc := if 128 ≤ x then x - 256 else x
  decide (0 < sc / 2)

/-- The macro `WIFSTOPPED(status)`: `(status & 0xff) == 0x7f`. -/
def WIFSTOPPED (status : Int) : Bool := decide (status % 256 = 127)

/-- The `printf` call sites of `test_ptrace_setoptions_for_all`, with the
argument each prints. -/
inductive Message where
  | fork
  | unexpected_wait_result (tracee_pid : Int)
  | unexpected_exit_status (code : Int)
  | unexpected_signal (sig : Int)
  | unexpected_wait_status (status : Int)
  | ptrace_setoptions
  | ptrace_syscall_does_not_work
  | test_failed
  deriving DecidableEq

/-- What the parent does to the outside world, in program order. -/
inductive Event where
  | wait
  | kill (pid : Int) (sig : Int)
  | PTRACE_SETOPTIONS (pid : Int)
  | PTRACE_SYSCALL (pid : Int)
  | printf (m : Message)
  deriving DecidableEq

/-- What the outside world answers during one pass through the loop body:
the value `wait(&status)` returns, `errno` after it, the value `status`
holds after it, the result of `PTRACE_SETOPTIONS` and `errno` after it, and
the result of `PTRACE_SYSCALL`. An answer to a call the pass does not make
is not looked at. -/
structure Turn where
  tracee_pid : Int
  wait_errno : Int
  status : Int
  setoptions : Int
  setoptions_errno : Int
  resume : Int

/-- How a run of the probe stands when the answers are used up. -/
inductive Outcome where
  | returned (value : Int)
  | still_looping
  | child_exited
  deriving DecidableEq

/-- The loop `while (1) { ... }` of `test_ptrace_setoptions_for_all` in the
parent, against the answers `turns`: the events, and the value of
`it_worked` when the loop is left by `break` or `none` when the answers are
used up with the loop still running. The constant `SIGTRAP | 0x80` is
written `SIGTRAP + 128` (bit 7 of `SIGTRAP` is clear). -/
def probeLoop (pid : Int) : List Turn → Int → List Event → Option Int × List Event
  | [], _, log => (none, log)
  | t :: rest, it_worked, log =>
    let log := log ++ [Event.wait]
    if t.tracee_pid ≤ 0 ∧ t.wait_errno = EINTR then
      probeLoop pid rest it_worked log
    else
      let log :=
        if t.tracee_pid ≤ 0 then
          log ++ [Event.kill pid SIGKILL,
            Event.printf (Message.unexpected_wait_result t.tracee_pid)]
        else log
      if WIFEXITED t.status = true ∧ WEXITSTATUS t.status = 0 then
        (some it_worked, log)
      else
        let log :=
          if WIFEXITED t.status = true then
            log ++ [Event.printf (Message.unexpected_exit_status (WEXITSTATUS t.status))]
          else log
        let log :=
          if WIFSIGNALED t.status = true then
            log ++ [Event.printf (Message.unexpected_signal (WTERMSIG t.status))]
          else log
        let log :=
          if ¬ (WIFSTOPPED t.status = true) then
            log ++ [Event.kill pid SIGKILL,
              Event.printf (Message.unexpected_wait_status t.status)]
          else log
        let log :=
          if WSTOPSIG t.status = SIGSTOP then
            if t.setoptions < 0 ∧ t.setoptions_errno ≠ EINVAL ∧ t.setoptions_errno ≠ EIO then
              log ++ [Event.PTRACE_SETOPTIONS pid, Event.printf Message.ptrace_setoptions]
            else log ++ [Event.PTRACE_SETOPTIONS pid]
          else log
        let it_worked := if WSTOPSIG t.status = SIGTRAP + 128 then 1 else it_worked
        let log :=
          if t.resume < 0 then
            log ++ [Event.PTRACE_SYSCALL pid, Event.kill pid SIGKILL,
              Event.printf Message.ptrace_syscall_does_not_work]
          else log ++ [Event.PTRACE_SYSCALL pid]
        probeLoop pid rest it_worked log

/-- The function `test_ptrace_setoptions_for_all()` after `fork()` returned
`pid`: the outcome and the events of the parent. With `pid = 0` the caller
is the child, which stops itself and calls `_exit(0)`: the function does not
return there. -/
def test_ptrace_setoptions_for_all (pid : Int) (turns : List Turn) :
    Outcome × List Event :=
  let log := if pid < 0 then [Event.printf Message.fork] else []
  if pid = 0 then (Outcome.child_exited, log)
  else
    match probeLoop pid turns 0 log with
    | (none, log) => (Outcome.still_looping, log)
    | (some it_worked, log) =>
      if it_worked ≠ 0 then (Outcome.returned 0, log)
      else (Outcome.returned 1, log ++ [Event.printf Message.test_failed])

/-- A wait that succeeds for process `p` with status `st`, with every
`ptrace` request of the pass succeeding. -/
def Turn.waited (p : Int) (st : Int) : Turn :=
  { tracee_pid := p, wait_errno := 0, status := st, setoptions := 0,
    setoptions_errno := 0, resume := 0 }

/-! ## Lemmas on the memory reader -/

theorem store_str (s : Tracer) (off : Int) (b : Byte) (o : Int) :
    (store s off b).str o = if o = off then b else s.str o := rfl

theorem memcpy_str (s : Tracer) (laddr : Int) (chars : Nat → Byte) (n : Nat) (o : Int) :
    (memcpy s laddr chars n).str o =
      if laddr ≤ o ∧ o < laddr + (n : Int) then chars (o - laddr).toNat else s.str o := by
  induction n with
  | zero =>
    have : ¬ (laddr ≤ o ∧ o < laddr + ((0 : Nat) : Int)) := by omega
    rw [if_neg this]; rfl
  | succ n ih =>
    simp only [memcpy, store_str, ih]
    by_cases h1 : o = laddr + (n : Int)
    · have h2 : laddr ≤ o ∧ o < laddr + ((n + 1 : Nat) : Int) := by omega
      have h3 : (o - laddr).toNat = n := by omega
      simp [h1, h2, h3]
    · by_cases h2 : laddr ≤ o ∧ o < laddr + (n : Int)
      · have h3 : laddr ≤ o ∧ o < laddr + ((n + 1 : Nat) : Int) := by omega
        rw [if_neg h1, if_pos h2, if_pos h3]
      · have h3 : ¬ (laddr ≤ o ∧ o < laddr + ((n + 1 : Nat) : Int)) := by omega
        rw [if_neg h1, if_neg h2, if_neg h3]

theorem copyWords_spec (W : Nat) (child : Int → Byte) (addr : Int) (n : Nat) :
    ∀ l : Locals,
      (copyWords W child addr n l).i = l.i + (n : Int) ∧
      (copyWords W child addr n l).laddr = l.laddr + (n : Int) * (W : Int) ∧
      ∀ o : Int, (copyWords W child addr n l).tr.str o =
        if l.laddr ≤ o ∧ o < l.laddr + (n : Int) * (W : Int)
        then child (l.i * (W : Int) + addr + (o - l.laddr)) else l.tr.str o := by
  induction n with
  | zero =>
    intro l
    refine ⟨by simp [copyWords], by simp [copyWords], fun o => ?_⟩
    have : ¬ (l.laddr ≤ o ∧ o < l.laddr + ((0 : Nat) : Int) * (W : Int)) := by
      simp only [Nat.cast_zero, zero_mul]; omega
    rw [if_neg this]; rfl
  | succ n ih =>
    intro l
    simp only [copyWords]
    obtain ⟨hi, hl, hs⟩ := ih
      { i := l.i + 1, laddr := l.laddr + (W : Int),
        tr := memcpy (PTRACE_PEEKDATA child (l.i * (W : Int) + addr) l.tr).2 l.laddr
                (PTRACE_PEEKDATA child (l.i * (W : Int) + addr) l.tr).1 W }
    have e1 : ((n + 1 : Nat) : Int) * (W : Int) = (n : Int) * (W : Int) + (W : Int) := by
      push_cast; ring
    have hnW : (0 : Int) ≤ (n : Int) * (W : Int) := by positivity
    refine ⟨by rw [hi]; push_cast; ring, by rw [hl, e1]; ring, fun o => ?_⟩
    rw [hs o, memcpy_str, e1]
    simp only [PTRACE_PEEKDATA]
    by_cases h1 : l.laddr + (W : Int) ≤ o ∧ o < l.laddr + (W : Int) + (n : Int) * (W : Int)
    · have h2 : l.laddr ≤ o ∧ o < l.laddr + ((n : Int) * (W : Int) + (W : Int)) := by omega
      rw [if_pos h1, if_pos h2]
      congr 1; ring
    · rw [if_neg h1]
      by_cases h2 : l.laddr ≤ o ∧ o < l.laddr + (W : Int)
      · have h3 : l.laddr ≤ o ∧ o < l.laddr + ((n : Int) * (W : Int) + (W : Int)) := by omega
        rw [if_pos h2, if_pos h3]
        congr 1
        have : (((o - l.laddr).toNat : Nat) : Int) = o - l.laddr := by omega
        rw [this]
      · have h3 : ¬ (l.laddr ≤ o ∧ o < l.laddr + ((n : Int) * (W : Int) + (W : Int))) := by omega
        rw [if_neg h2, if_neg h3]

/-- The copying loop started as the functions start it: `i = 0`, `laddr = str`. -/
theorem copyWords_init (W : Nat) (child : Int → Byte) (addr : Int) (n : Nat) (s : Tracer) :
    (copyWords W child addr n { i := 0, laddr := 0, tr := s }).i = (n : Int) ∧
    (copyWords W child addr n { i := 0, laddr := 0, tr := s }).laddr = (n : Int) * (W : Int) ∧
    ∀ o : Int, (copyWords W child addr n { i := 0, laddr := 0, tr := s }).tr.str o =
      if 0 ≤ o ∧ o < (n : Int) * (W : Int) then child (addr + o) else s.str o := by
  obtain ⟨hi, hl, hs⟩ := copyWords_spec W child addr n { i := 0, laddr := 0, tr := s }
  refine ⟨by simpa using hi, by simpa using hl, fun o => ?_⟩
  have := hs o
  simpa using this

/-- A non-negative `len` splits as `q * W + r` with `q = len / W` and
`r = len % W < W`, for C's truncating operators. -/
theorem len_split (W : Nat) (len : Int) (hW : 0 < W) (hlen : 0 ≤ len) :
    ∃ q r : Nat, Int.tdiv len (W : Int) = (q : Int) ∧ Int.tmod len (W : Int) = (r : Int) ∧
      r < W ∧ len = (q : Int) * (W : Int) + (r : Int) := by
  have hW0 : (0 : Int) ≤ (W : Int) := Int.ofNat_nonneg W
  have hWp : (0 : Int) < (W : Int) := by exact_mod_cast hW
  have hq : 0 ≤ Int.tdiv len (W : Int) := Int.tdiv_nonneg hlen hW0
  have hr : 0 ≤ Int.tmod len (W : Int) := Int.tmod_nonneg _ hlen
  have hr2 : Int.tmod len (W : Int) < (W : Int) := Int.tmod_lt_of_pos _ hWp
  have hsum := Int.tdiv_add_tmod' len (W : Int)
  refine ⟨(Int.tdiv len (W : Int)).toNat, (Int.tmod len (W : Int)).toNat, ?_, ?_, ?_, ?_⟩
  · rw [Int.toNat_of_nonneg hq]
  · rw [Int.toNat_of_nonneg hr]
  · omega
  · rw [Int.toNat_of_nonneg hq, Int.toNat_of_nonneg hr]; exact hsum.symm

/-- The destination after `get_string_data` with `len = q * W + r ≥ 0`: a NUL
at offset `2 * len`; below it, the tracee bytes over the whole words read
(`q` words, and one more when `r ≠ 0`); every other byte as on entry. -/
theorem get_string_data_str (W : Nat) (child : Int → Byte) (addr : Int) (s : Tracer)
    (q r : Nat) (hr : r < W) (o : Int) :
    (get_string_data W child addr s ((q : Int) * (W : Int) + (r : Int))).str o =
      if o = 2 * ((q : Int) * (W : Int) + (r : Int)) then 0
      else if 0 ≤ o ∧ o < ((q : Int) + (if r = 0 then 0 else 1)) * (W : Int)
      then child (addr + o) else s.str o := by
  have hW : 0 < W := by omega
  have hlen : (0 : Int) ≤ (q : Int) * (W : Int) + (r : Int) := by positivity
  obtain ⟨q', r', hq', hr', hlt, hsum⟩ := len_split W _ hW hlen
  have hqW : (0 : Int) ≤ (q : Int) * (W : Int) := by positivity
  have hdiv : ((q : Int) * (W : Int) + (r : Int)) / (W : Int) = (q : Int) := by
    have hWp : (W : Int) ≠ 0 := by omega
    rw [Int.add_comm, Int.add_mul_ediv_right _ _ hWp, Int.ediv_eq_zero_of_lt (by omega) (by omega)]
    simp
  have hqq : q' = q := by
    have := Int.tdiv_eq_ediv hlen (Int.ofNat_nonneg W)
    rw [hq', hdiv] at this
    exact_mod_cast this
  subst hqq
  have hrr : r' = r := by omega
  subst hrr
  obtain ⟨hi, hl, hs⟩ := copyWords_spec W child addr q' { i := 0, laddr := 0, tr := s }
  simp only [get_string_data, hq', hr', Int.toNat_ofNat]
  by_cases hz : r' = 0
  · subst hz
    simp only [Nat.cast_zero, ne_eq, not_true_eq_false, if_false, store_str, hl, hs,
      add_zero, zero_add, zero_mul, if_true, Int.sub_zero]
    by_cases h1 : o = (q' : Int) * (W : Int) + (q' : Int) * (W : Int)
    · have h2 : o = 2 * ((q' : Int) * (W : Int)) := by omega
      rw [if_pos h1, if_pos h2]
    · have h2 : ¬ o = 2 * ((q' : Int) * (W : Int)) := by omega
      rw [if_neg h1, if_neg h2]
  · have hz' : ¬ ((r' : Int) = 0) := by omega
    simp only [ne_eq, hz', not_false_eq_true, if_true, store_str, hl, hi, memcpy_str,
      PTRACE_PEEKDATA, hs, zero_add, hz, if_false, zero_mul, Int.sub_zero]
    have e1 : ((q' : Int) + 1) * (W : Int) = (q' : Int) * (W : Int) + (W : Int) := by ring
    rw [e1]
    by_cases h1 : o = (q' : Int) * (W : Int) + (r' : Int) + ((q' : Int) * (W : Int) + (r' : Int))
    · have h2 : o = 2 * ((q' : Int) * (W : Int) + (r' : Int)) := by omega
      rw [if_pos h1, if_pos h2]
    · have h2 : ¬ o = 2 * ((q' : Int) * (W : Int) + (r' : Int)) := by omega
      rw [if_neg h1, if_neg h2]
      by_cases h3 : (q' : Int) * (W : Int) ≤ o ∧ o < (q' : Int) * (W : Int) + (W : Int)
      · have h4 : 0 ≤ o ∧ o < (q' : Int) * (W : Int) + (W : Int) := by omega
        rw [if_pos h3, if_pos h4]
        congr 1
        have : (((o - (q' : Int) * (W : Int)).toNat : Nat) : Int) = o - (q' : Int) * (W : Int) := by
          omega
        rw [this]; ring
      · rw [if_neg h3]
        by_cases h4 : 0 ≤ o ∧ o < (q' : Int) * (W : Int)
        · have h5 : 0 ≤ o ∧ o < (q' : Int) * (W : Int) + (W : Int) := by omega
          rw [if_pos h4, if_pos h5]
        · have h5 : ¬ (0 ≤ o ∧ o < (q' : Int) * (W : Int) + (W : Int)) := by omega
          rw [if_neg h4, if_neg h5]

theorem scanFrom_eq_some (chars : Nat → Byte) (p : Nat) (h0 : chars p = 0) :
    ∀ (fuel k : Nat), k ≤ p → p < k + fuel → (∀ m, k ≤ m → m < p → chars m ≠ 0) →
      scanFrom chars fuel k = some p := by
  intro fuel
  induction fuel with
  | zero => intro k h1 h2 _; omega
  | succ fuel ih =>
    intro k h1 h2 h3
    by_cases hk : k = p
    · subst hk; simp [scanFrom, h0]
    · have hne : chars k ≠ 0 := h3 k (le_refl k) (by omega)
      simp only [scanFrom, hne, if_false]
      exact ih (k + 1) (by omega) (by omega) (fun m hm1 hm2 => h3 m (by omega) hm2)

theorem scanFrom_eq_none (chars : Nat → Byte) :
    ∀ (fuel k : Nat), (∀ m, k ≤ m → m < k + fuel → chars m ≠ 0) →
      scanFrom chars fuel k = none := by
  intro fuel
  induction fuel with
  | zero => intro k _; rfl
  | succ fuel ih =>
    intro k h
    have hne : chars k ≠ 0 := h k (le_refl k) (by omega)
    simp only [scanFrom, hne, if_false]
    exact ih (k + 1) (fun m hm1 hm2 => h m (by omega) (by omega))

theorem scanZero_eq_some (chars : Nat → Byte) (n p : Nat) (hp : p < n) (h0 : chars p = 0)
    (hfirst : ∀ m, m < p → chars m ≠ 0) : scanZero chars n = some p :=
  scanFrom_eq_some chars p h0 n 0 (Nat.zero_le p) (by omega) (fun m _ hm => hfirst m hm)

theorem scanZero_eq_none (chars : Nat → Byte) (n : Nat) (h : ∀ m, m < n → chars m ≠ 0) :
    scanZero chars n = none :=
  scanFrom_eq_none chars n 0 (fun m _ hm => h m (by omega))

/-- While no word holds a zero byte, the scanning loop of the unbounded
reader does what the copying loop of the bounded reader does. -/
theorem scanWords_eq_copyWords (W : Nat) (child : Int → Byte) (addr : Int) (n : Nat) :
    ∀ l : Locals,
      (∀ m : Nat, m < n * W → child (l.i * (W : Int) + addr + (m : Int)) ≠ 0) →
      scanWords W child addr n l = .ok (copyWords W child addr n l) := by
  induction n with
  | zero => intro l _; rfl
  | succ n ih =>
    intro l h
    have hscan : scanZero (PTRACE_PEEKDATA child (l.i * (W : Int) + addr) l.tr).1 W = none := by
      apply scanZero_eq_none
      intro m hm
      exact h m (by rw [Nat.succ_mul]; omega)
    simp only [scanWords, copyWords, hscan]
    apply ih
    intro m hm
    have := h (m + W) (by rw [Nat.succ_mul]; omega)
    have e : (l.i + 1) * (W : Int) + addr + (m : Int)
        = l.i * (W : Int) + addr + ((m + W : Nat) : Int) := by push_cast; ring
    simp only [e]
    exact this

/-- When the first zero byte lies at offset `p` inside the `n` words ahead,
the scanning loop returns early, having stored the tracee bytes up to and
including that zero byte and nothing else. -/
theorem scanWords_found (W : Nat) (child : Int → Byte) (addr : Int) (n : Nat) :
    ∀ (l : Locals) (p : Nat), p < n * W →
      child (l.i * (W : Int) + addr + (p : Int)) = 0 →
      (∀ m : Nat, m < p → child (l.i * (W : Int) + addr + (m : Int)) ≠ 0) →
      ∃ t, scanWords W child addr n l = .error t ∧
        ∀ o : Int, t.str o =
          if l.laddr ≤ o ∧ o ≤ l.laddr + (p : Int)
          then child (l.i * (W : Int) + addr + (o - l.laddr)) else l.tr.str o := by
  induction n with
  | zero => intro l p hp; omega
  | succ n ih =>
    intro l p hp h0 hfirst
    by_cases hpW : p < W
    · have hscan : scanZero (PTRACE_PEEKDATA child (l.i * (W : Int) + addr) l.tr).1 W
          = some p := scanZero_eq_some _ W p hpW h0 hfirst
      refine ⟨memcpy (PTRACE_PEEKDATA child (l.i * (W : Int) + addr) l.tr).2 l.laddr
        (PTRACE_PEEKDATA child (l.i * (W : Int) + addr) l.tr).1 (p + 1),
        by simp only [scanWords, hscan], fun o => ?_⟩
      rw [memcpy_str]
      simp only [PTRACE_PEEKDATA]
      by_cases h1 : l.laddr ≤ o ∧ o < l.laddr + ((p + 1 : Nat) : Int)
      · have h2 : l.laddr ≤ o ∧ o ≤ l.laddr + (p : Int) := by omega
        rw [if_pos h1, if_pos h2]
        congr 1
        have : (((o - l.laddr).toNat : Nat) : Int) = o - l.laddr := by omega
        rw [this]
      · have h2 : ¬ (l.laddr ≤ o ∧ o ≤ l.laddr + (p : Int)) := by omega
        rw [if_neg h1, if_neg h2]
    · have hscan : scanZero (PTRACE_PEEKDATA child (l.i * (W : Int) + addr) l.tr).1 W
          = none := scanZero_eq_none _ W (fun m hm => hfirst m (by omega))
      have e : ∀ m : Nat, (l.i + 1) * (W : Int) + addr + (m : Int)
          = l.i * (W : Int) + addr + ((m + W : Nat) : Int) := by
        intro m; push_cast; ring
      obtain ⟨t, ht, hs⟩ := ih
        { i := l.i + 1, laddr := l.laddr + (W : Int),
          tr := memcpy (PTRACE_PEEKDATA child (l.i * (W : Int) + addr) l.tr).2 l.laddr
                  (PTRACE_PEEKDATA child (l.i * (W : Int) + addr) l.tr).1 W }
        (p - W) (by rw [Nat.succ_mul] at hp; omega)
        (by
          show child ((l.i + 1) * (W : Int) + addr + ((p - W : Nat) : Int)) = 0
          rw [e, Nat.sub_add_cancel (by omega)]; exact h0)
        (by
          intro m hm
          show child ((l.i + 1) * (W : Int) + addr + (m : Int)) ≠ 0
          rw [e]; exact hfirst (m + W) (by omega))
      refine ⟨t, by simp only [scanWords, hscan]; exact ht, fun o => ?_⟩
      rw [hs o, memcpy_str]
      simp only [PTRACE_PEEKDATA]
      have hpc : (((p - W : Nat) : Nat) : Int) = (p : Int) - (W : Int) := by omega
      rw [hpc]
      by_cases h1 : l.laddr + (W : Int) ≤ o ∧ o ≤ l.laddr + (W : Int) + ((p : Int) - (W : Int))
      · have h2 : l.laddr ≤ o ∧ o ≤ l.laddr + (p : Int) := by omega
        rw [if_pos h1, if_pos h2]
        congr 1; ring
      · rw [if_neg h1]
        by_cases h2 : l.laddr ≤ o ∧ o < l.laddr + (W : Int)
        · have h3 : l.laddr ≤ o ∧ o ≤ l.laddr + (p : Int) := by omega
          rw [if_pos h2, if_pos h3]
          congr 1
          have : (((o - l.laddr).toNat : Nat) : Int) = o - l.laddr := by omega
          rw [this]
        · have h3 : ¬ (l.laddr ≤ o ∧ o ≤ l.laddr + (p : Int)) := by omega
          rw [if_neg h2, if_neg h3]

/-! ## The bounded reader `get_string_data` -/

/-- C1. After `get_string_data(child, addr, str, len)` with `len ≥ 0`, every
destination byte at an offset `i` with `0 ≤ i < len` equals the tracee byte
at `addr + i`, for every tracee memory, address, word size and initial
destination. -/
theorem get_string_data_copies (W : Nat) (child : Int → Byte) (addr : Int) (s : Tracer)
    (len : Int) (hW : 0 < W) (hlen : 0 ≤ len) (i : Nat) (hi : (i : Int) < len) :
    (get_string_data W child addr s len).str (i : Int) = child (addr + (i : Int)) := by
  obtain ⟨q, r, _, _, hr, hsum⟩ := len_split W len hW hlen
  subst hsum
  rw [get_string_data_str W child addr s q r hr]
  have hqW : (0 : Int) ≤ (q : Int) * (W : Int) := by positivity
  have h1 : ¬ ((i : Int) = 2 * ((q : Int) * (W : Int) + (r : Int))) := by omega
  rw [if_neg h1]
  by_cases hz : r = 0
  · subst hz
    have h2 : 0 ≤ (i : Int) ∧ (i : Int) < ((q : Int) + (if (0 : Nat) = 0 then 0 else 1)) * (W : Int) := by
      simp only [if_true, add_zero]
      constructor
      · omega
      · simpa using hi
    rw [if_pos h2]
  · have h2 : 0 ≤ (i : Int) ∧ (i : Int) < ((q : Int) + (if r = 0 then 0 else 1)) * (W : Int) := by
      simp only [hz, if_false]
      have e1 : ((q : Int) + 1) * (W : Int) = (q : Int) * (W : Int) + (W : Int) := by ring
      rw [e1]
      omega
    rw [if_pos h2]

/-- An instance of C1: word size 4, six bytes read from address 100. -/
theorem get_string_data_copies_witness :
    0 < 4 ∧ (0 : Int) ≤ 6 ∧ ((5 : Nat) : Int) < 6 ∧
    (get_string_data 4 (memOf 100 [104, 101, 108, 108, 111, 33, 7, 8] 9) 100
        (Tracer.fresh 66) 6).str ((5 : Nat) : Int)
      = memOf 100 [104, 101, 108, 108, 111, 33, 7, 8] 9 (100 + ((5 : Nat) : Int)) :=
  ⟨by decide, by decide, by decide,
    get_string_data_copies 4 (memOf 100 [104, 101, 108, 108, 111, 33, 7, 8] 9) 100
      (Tracer.fresh 66) 6 (by decide) (by decide) 5 (by decide)⟩

/-- C2. The byte at offset `len` is not a NUL after the call in general: with
word size 8 and `len = 5` over the tracee bytes `"hello world"`, offset 5
holds the tracee's next byte (the blank, 32) and the NUL is stored at offset
10; with `len = 8` offset 8 keeps the byte the destination held on entry (66)
and the NUL is stored at offset 16. -/
theorem get_string_data_nul_misplaced :
    (get_string_data 8 (memOf 4096 [104, 101, 108, 108, 111, 32, 119, 111, 114, 108, 100] 0)
        4096 (Tracer.fresh 66) 5).str 5 = 32 ∧
    (get_string_data 8 (memOf 4096 [104, 101, 108, 108, 111, 32, 119, 111, 114, 108, 100] 0)
        4096 (Tracer.fresh 66) 5).str 10 = 0 ∧
    (get_string_data 8 (memOf 4096 [104, 101, 108, 108, 111, 32, 119, 111, 114, 108, 100] 0)
        4096 (Tracer.fresh 66) 8).str 8 = 66 ∧
    (get_string_data 8 (memOf 4096 [104, 101, 108, 108, 111, 32, 119, 111, 114, 108, 100] 0)
        4096 (Tracer.fresh 66) 8).str 16 = 0 := by
  decide

/-- C10. The stores of the call are not confined to offsets `0 .. len`: with
word size 8 and `len = 1` the tail copy stores a whole word at offsets
`0 .. 7` and the terminator is stored at offset 2. -/
theorem get_string_data_writes_past_len :
    (get_string_data 8 (memOf 4096 [104, 101, 108, 108, 111, 32, 119, 111, 114, 108, 100] 0)
        4096 (Tracer.fresh 66) 1).written = [0, 1, 2, 3, 4, 5, 6, 7, 2] := by
  decide

/-! ## The unbounded reader `get_string_data_unbounded` -/

/-- C3. If the first zero byte of the tracee at or after `addr` lies at
offset `p` and `p < len`, then `get_string_data_unbounded(child, addr, str,
len)` returns 0 and every destination byte at an offset `i` with
`0 ≤ i ≤ p` equals the tracee byte at `addr + i`: the string and its NUL. -/
theorem get_string_data_unbounded_found (W : Nat) (child : Int → Byte) (addr : Int)
    (s : Tracer) (len : Int) (p : Nat) (hW : 0 < W) (hp : (p : Int) < len)
    (h0 : child (addr + (p : Int)) = 0)
    (hfirst : ∀ m : Nat, m < p → child (addr + (m : Int)) ≠ 0) :
    (get_string_data_unbounded W child addr s len).1 = 0 ∧
    ∀ i : Nat, i ≤ p →
      (get_string_data_unbounded W child addr s len).2.str (i : Int) = child (addr + (i : Int)) := by
  have hlen : 0 ≤ len := by omega
  obtain ⟨q, r, hq, hr, hrW, hsum⟩ := len_split W len hW hlen
  have hqW : (0 : Int) ≤ (q : Int) * (W : Int) := by positivity
  have hcast : ((q * W : Nat) : Int) = (q : Int) * (W : Int) := by push_cast; ring
  simp only [get_string_data_unbounded, hq, hr, Int.toNat_ofNat]
  by_cases hin : p < q * W
  · obtain ⟨t, ht, hs⟩ := scanWords_found W child addr q { i := 0, laddr := 0, tr := s } p hin
      (by simpa using h0) (by simpa using hfirst)
    simp only [ht]
    refine ⟨trivial, fun i hi => ?_⟩
    rw [hs]
    have h1 : (0 : Int) ≤ (i : Int) ∧ (i : Int) ≤ 0 + (p : Int) := by omega
    simp only [zero_mul, zero_add, Int.sub_zero] at h1 ⊢
    rw [if_pos h1]
  · have hnz : ∀ m : Nat, m < q * W →
        child ((0 : Int) * (W : Int) + addr + (m : Int)) ≠ 0 := by
      intro m hm
      simpa using hfirst m (by omega)
    have hloop := scanWords_eq_copyWords W child addr q { i := 0, laddr := 0, tr := s } hnz
    obtain ⟨hi', hl', hs'⟩ := copyWords_init W child addr q s
    have hpr : p - q * W < r := by omega
    have hr0 : ¬ ((r : Int) = 0) := by omega
    have hpc : ((p - q * W : Nat) : Int) = (p : Int) - (q : Int) * (W : Int) := by omega
    have hscan : scanZero (PTRACE_PEEKDATA child
          ((copyWords W child addr q { i := 0, laddr := 0, tr := s }).i * (W : Int) + addr)
          (copyWords W child addr q { i := 0, laddr := 0, tr := s }).tr).1 r
        = some (p - q * W) := by
      apply scanZero_eq_some _ r (p - q * W) hpr
      · show child (_ + ((p - q * W : Nat) : Int)) = 0
        rw [hi', hpc]
        have : (q : Int) * (W : Int) + addr + ((p : Int) - (q : Int) * (W : Int))
            = addr + (p : Int) := by ring
        rw [this]; exact h0
      · intro m hm
        show child (_ + (m : Int)) ≠ 0
        rw [hi']
        have : (q : Int) * (W : Int) + addr + (m : Int) = addr + ((q * W + m : Nat) : Int) := by
          push_cast; ring
        rw [this]; exact hfirst (q * W + m) (by omega)
    simp only [hloop, ne_eq, hr0, not_false_eq_true, if_true, hscan]
    refine ⟨trivial, fun i hi => ?_⟩
    rw [memcpy_str]
    simp only [PTRACE_PEEKDATA]
    rw [hl', hi', hs']
    by_cases h1 : (q : Int) * (W : Int) ≤ (i : Int) ∧
        (i : Int) < (q : Int) * (W : Int) + ((p - q * W + 1 : Nat) : Int)
    · rw [if_pos h1]
      congr 1
      have : ((((i : Int) - (q : Int) * (W : Int)).toNat : Nat) : Int)
          = (i : Int) - (q : Int) * (W : Int) := by omega
      rw [this]; ring
    · have h2 : (0 : Int) ≤ (i : Int) ∧ (i : Int) < (q : Int) * (W : Int) := by
        constructor
        · omega
        · by_contra hc
          apply h1
          constructor
          · omega
          · push_cast; omega
      rw [if_neg h1, if_pos h2]

/-- An instance of C3: word size 4, the string `"hello"` at address 100 and
its NUL at offset 5, scanned with `len = 7`. -/
theorem get_string_data_unbounded_found_witness :
    0 < 4 ∧ ((5 : Nat) : Int) < 7 ∧
    memOf 100 [104, 101, 108, 108, 111, 0, 7, 8] 9 (100 + ((5 : Nat) : Int)) = 0 ∧
    (∀ m : Nat, m < 5 → memOf 100 [104, 101, 108, 108, 111, 0, 7, 8] 9 (100 + (m : Int)) ≠ 0) ∧
    ((get_string_data_unbounded 4 (memOf 100 [104, 101, 108, 108, 111, 0, 7, 8] 9) 100
        (Tracer.fresh 66) 7).1 = 0 ∧
      ∀ i : Nat, i ≤ 5 →
        (get_string_data_unbounded 4 (memOf 100 [104, 101, 108, 108, 111, 0, 7, 8] 9) 100
          (Tracer.fresh 66) 7).2.str (i : Int)
          = memOf 100 [104, 101, 108, 108, 111, 0, 7, 8] 9 (100 + (i : Int))) :=
  ⟨by decide, by decide, by decide, by decide,
    get_string_data_unbounded_found 4 (memOf 100 [104, 101, 108, 108, 111, 0, 7, 8] 9) 100
      (Tracer.fresh 66) 7 5 (by decide) (by decide) (by decide) (by decide)⟩

/-- C4. If none of the tracee bytes at `addr .. addr + len - 1` is zero
(`len ≥ 0`), then `get_string_data_unbounded(child, addr, str, len)` returns
-1 and every destination byte at an offset `i` with `0 ≤ i < len` equals the
tracee byte at `addr + i`. Nothing is assumed about the bytes from
`addr + len` on: a zero byte in the final word at a position `≥ len % W` is
not scanned and does not count as a terminator. -/
theorem get_string_data_unbounded_not_found (W : Nat) (child : Int → Byte) (addr : Int)
    (s : Tracer) (len : Int) (hW : 0 < W) (hlen : 0 ≤ len)
    (hnz : ∀ m : Nat, m < len.toNat → child (addr + (m : Int)) ≠ 0) :
    (get_string_data_unbounded W child addr s len).1 = -1 ∧
    ∀ i : Nat, i < len.toNat →
      (get_string_data_unbounded W child addr s len).2.str (i : Int) = child (addr + (i : Int)) := by
  obtain ⟨q, r, hq, hr, hrW, hsum⟩ := len_split W len hW hlen
  have hqW : (0 : Int) ≤ (q : Int) * (W : Int) := by positivity
  have hcast : ((q * W : Nat) : Int) = (q : Int) * (W : Int) := by push_cast; ring
  have hnz0 : ∀ m : Nat, m < q * W →
      child ((0 : Int) * (W : Int) + addr + (m : Int)) ≠ 0 := by
    intro m hm
    simpa using hnz m (by omega)
  have hloop := scanWords_eq_copyWords W child addr q { i := 0, laddr := 0, tr := s } hnz0
  obtain ⟨hi', hl', hs'⟩ := copyWords_init W child addr q s
  simp only [get_string_data_unbounded, hq, hr, Int.toNat_ofNat, hloop]
  by_cases hz : r = 0
  · subst hz
    simp only [Nat.cast_zero, ne_eq, not_true_eq_false, if_false]
    refine ⟨trivial, fun i hi => ?_⟩
    rw [hs']
    have h1 : (0 : Int) ≤ (i : Int) ∧ (i : Int) < (q : Int) * (W : Int) := by omega
    rw [if_pos h1]
  · have hr0 : ¬ ((r : Int) = 0) := by omega
    have hscan : scanZero (PTRACE_PEEKDATA child
          ((copyWords W child addr q { i := 0, laddr := 0, tr := s }).i * (W : Int) + addr)
          (copyWords W child addr q { i := 0, laddr := 0, tr := s }).tr).1 r = none := by
      apply scanZero_eq_none
      intro m hm
      show child (_ + (m : Int)) ≠ 0
      rw [hi']
      have : (q : Int) * (W : Int) + addr + (m : Int) = addr + ((q * W + m : Nat) : Int) := by
        push_cast; ring
      rw [this]; exact hnz (q * W + m) (by omega)
    simp only [ne_eq, hr0, not_false_eq_true, if_true, hscan]
    refine ⟨trivial, fun i hi => ?_⟩
    rw [memcpy_str]
    simp only [PTRACE_PEEKDATA]
    rw [hl', hi', hs']
    by_cases h1 : (q : Int) * (W : Int) ≤ (i : Int) ∧
        (i : Int) < (q : Int) * (W : Int) + (W : Int)
    · rw [if_pos h1]
      congr 1
      have : ((((i : Int) - (q : Int) * (W : Int)).toNat : Nat) : Int)
          = (i : Int) - (q : Int) * (W : Int) := by omega
      rw [this]; ring
    · have h2 : (0 : Int) ≤ (i : Int) ∧ (i : Int) < (q : Int) * (W : Int) := by omega
      rw [if_neg h1, if_pos h2]

/-- An instance of C4: word size 4 and `len = 6`, six non-zero bytes at
address 100 followed by a zero byte at offset 6, inside the final word but
past `len % 4 = 2`. -/
theorem get_string_data_unbounded_not_found_witness :
    0 < 4 ∧ (0 : Int) ≤ 6 ∧
    (∀ m : Nat, m < (6 : Int).toNat →
      memOf 100 [104, 101, 108, 108, 111, 33, 0, 8] 9 (100 + (m : Int)) ≠ 0) ∧
    memOf 100 [104, 101, 108, 108, 111, 33, 0, 8] 9 106 = 0 ∧
    ((get_string_data_unbounded 4 (memOf 100 [104, 101, 108, 108, 111, 33, 0, 8] 9) 100
        (Tracer.fresh 66) 6).1 = -1 ∧
      ∀ i : Nat, i < (6 : Int).toNat →
        (get_string_data_unbounded 4 (memOf 100 [104, 101, 108, 108, 111, 33, 0, 8] 9) 100
          (Tracer.fresh 66) 6).2.str (i : Int)
          = memOf 100 [104, 101, 108, 108, 111, 33, 0, 8] 9 (100 + (i : Int))) :=
  ⟨by decide, by decide, by decide, by decide,
    get_string_data_unbounded_not_found 4 (memOf 100 [104, 101, 108, 108, 111, 33, 0, 8] 9) 100
      (Tracer.fresh 66) 6 (by decide) (by decide) (by decide)⟩

/-! ## The register snapshot `get_regs` -/

theorem toInt32_of_fits (x : Int) (h : -2 ^ 31 ≤ x ∧ x < 2 ^ 31) : toInt32 x = x := by
  unfold toInt32
  omega

theorem toInt64_emod (x : Nat) : toInt64 x % 2 ^ 64 = (x : Int) % 2 ^ 64 := by
  unfold toInt64
  omega

/-- C5. Slots 5 and 6 of the vector do not hold the frame pointer and the
return value: after a successful snapshot slot 5 holds `edi` / `rdi` / `r4`,
slot 6 holds `ebp` / `rbp` / `r5`, and the return-value register `eax` /
`rax` / `r0` is in slot 7. Evaluated on register files with pairwise
distinct values. -/
theorem get_regs_slots_5_6_shifted :
    ((get_regs_i386 0 sample_i386 (fun _ => 0)).2 5 = sample_i386.edi ∧
      (get_regs_i386 0 sample_i386 (fun _ => 0)).2 5 ≠ sample_i386.ebp ∧
      (get_regs_i386 0 sample_i386 (fun _ => 0)).2 6 = sample_i386.ebp ∧
      (get_regs_i386 0 sample_i386 (fun _ => 0)).2 6 ≠ sample_i386.eax ∧
      (get_regs_i386 0 sample_i386 (fun _ => 0)).2 7 = sample_i386.eax) ∧
    ((get_regs_x86_64 0 sample_x86_64 (fun _ => 0)).2 5 = (sample_x86_64.rdi : Int) ∧
      (get_regs_x86_64 0 sample_x86_64 (fun _ => 0)).2 5 ≠ (sample_x86_64.rbp : Int) ∧
      (get_regs_x86_64 0 sample_x86_64 (fun _ => 0)).2 6 = (sample_x86_64.rbp : Int) ∧
      (get_regs_x86_64 0 sample_x86_64 (fun _ => 0)).2 6 ≠ (sample_x86_64.rax : Int) ∧
      (get_regs_x86_64 0 sample_x86_64 (fun _ => 0)).2 7 = (sample_x86_64.rax : Int)) ∧
    ((get_regs_arm 0 sample_arm (fun _ => 0)).2 5 = sample_arm.ARM_r4 ∧
      (get_regs_arm 0 sample_arm (fun _ => 0)).2 5 ≠ sample_arm.ARM_fp ∧
      (get_regs_arm 0 sample_arm (fun _ => 0)).2 6 = sample_arm.ARM_r5 ∧
      (get_regs_arm 0 sample_arm (fun _ => 0)).2 6 ≠ sample_arm.ARM_r0 ∧
      (get_regs_arm 0 sample_arm (fun _ => 0)).2 7 = sample_arm.ARM_r0) := by
  decide

/-- C6. On the 64-bit x86 layout slots 1..4 do not hold the syscall argument
registers `rdi, rsi, rdx, r10`: they hold `rbx, rcx, rdx, rsi`. Evaluated on
a register file with pairwise distinct values; the 32-bit x86 and ARM
layouts do hold `ebx, ecx, edx, esi` and `r0, r1, r2, r3` there. -/
theorem get_regs_x86_64_argument_slots :
    ((get_regs_x86_64 0 sample_x86_64 (fun _ => 0)).2 1 = (sample_x86_64.rbx : Int) ∧
      (get_regs_x86_64 0 sample_x86_64 (fun _ => 0)).2 2 = (sample_x86_64.rcx : Int) ∧
      (get_regs_x86_64 0 sample_x86_64 (fun _ => 0)).2 3 = (sample_x86_64.rdx : Int) ∧
      (get_regs_x86_64 0 sample_x86_64 (fun _ => 0)).2 4 = (sample_x86_64.rsi : Int)) ∧
    ((get_regs_x86_64 0 sample_x86_64 (fun _ => 0)).2 1 ≠ (sample_x86_64.rdi : Int) ∧
      (get_regs_x86_64 0 sample_x86_64 (fun _ => 0)).2 2 ≠ (sample_x86_64.rsi : Int) ∧
      (get_regs_x86_64 0 sample_x86_64 (fun _ => 0)).2 4 ≠ (sample_x86_64.r10 : Int)) ∧
    ((get_regs_i386 0 sample_i386 (fun _ => 0)).2 1 = sample_i386.ebx ∧
      (get_regs_i386 0 sample_i386 (fun _ => 0)).2 2 = sample_i386.ecx ∧
      (get_regs_i386 0 sample_i386 (fun _ => 0)).2 3 = sample_i386.edx ∧
      (get_regs_i386 0 sample_i386 (fun _ => 0)).2 4 = sample_i386.esi) ∧
    ((get_regs_arm 0 sample_arm (fun _ => 0)).2 1 = sample_arm.ARM_r0 ∧
      (get_regs_arm 0 sample_arm (fun _ => 0)).2 2 = sample_arm.ARM_r1 ∧
      (get_regs_arm 0 sample_arm (fun _ => 0)).2 3 = sample_arm.ARM_r2 ∧
      (get_regs_arm 0 sample_arm (fun _ => 0)).2 4 = sample_arm.ARM_r3) := by
  decide

theorem setSlot_eight (buf : Nat → Int) (v0 v1 v2 v3 v4 v5 v6 v7 : Int) (k : Nat) :
    setSlot (setSlot (setSlot (setSlot (setSlot (setSlot (setSlot (setSlot buf
      0 v0) 1 v1) 2 v2) 3 v3) 4 v4) 5 v5) 6 v6) 7 v7 k
      = [v0, v1, v2, v3, v4, v5, v6, v7].getD k (buf k) := by
  match k with
  | 0 => rfl
  | 1 => rfl
  | 2 => rfl
  | 3 => rfl
  | 4 => rfl
  | 5 => rfl
  | 6 => rfl
  | 7 => rfl
  | k + 8 => simp [setSlot]

/-- The successful path of `get_regs` on 32-bit x86. -/
theorem get_regs_i386_ok (r : Int) (hr : 0 ≤ r ∧ r < 2 ^ 31) (buf : Nat → Int)
    (ri : user_regs_struct_i386) :
    get_regs_i386 r ri buf = (r, fun k =>
      [ri.orig_eax, ri.ebx, ri.ecx, ri.edx, ri.esi, ri.edi, ri.ebp, ri.eax].getD k (buf k)) := by
  have he : toInt32 r = r := toInt32_of_fits r (by omega)
  have hn : ¬ r < 0 := by omega
  unfold get_regs_i386
  rw [he, if_neg hn]
  exact Prod.ext rfl (funext fun k => setSlot_eight buf _ _ _ _ _ _ _ _ k)

/-- The successful path of `get_regs` on 64-bit x86. -/
theorem get_regs_x86_64_ok (r : Int) (hr : 0 ≤ r ∧ r < 2 ^ 31) (buf : Nat → Int)
    (rx : user_regs_struct_x86_64) :
    get_regs_x86_64 r rx buf = (r, fun k =>
      [toInt64 rx.orig_rax, toInt64 rx.rbx, toInt64 rx.rcx, toInt64 rx.rdx, toInt64 rx.rsi,
        toInt64 rx.rdi, toInt64 rx.rbp, toInt64 rx.rax].getD k (buf k)) := by
  have he : toInt32 r = r := toInt32_of_fits r (by omega)
  have hn : ¬ r < 0 := by omega
  unfold get_regs_x86_64
  rw [he, if_neg hn]
  generalize toInt64 rx.orig_rax = v0
  generalize toInt64 rx.rbx = v1
  generalize toInt64 rx.rcx = v2
  generalize toInt64 rx.rdx = v3
  generalize toInt64 rx.rsi = v4
  generalize toInt64 rx.rdi = v5
  generalize toInt64 rx.rbp = v6
  generalize toInt64 rx.rax = v7
  exact Prod.ext rfl (funext fun k => setSlot_eight buf v0 v1 v2 v3 v4 v5 v6 v7 k)

/-- The successful path of `get_regs` on ARM. -/
theorem get_regs_arm_ok (r : Int) (hr : 0 ≤ r ∧ r < 2 ^ 31) (buf : Nat → Int)
    (ra : arm_pt_regs) :
    get_regs_arm r ra buf = (r, fun k =>
      [ra.ARM_r7, ra.ARM_r0, ra.ARM_r1, ra.ARM_r2, ra.ARM_r3, ra.ARM_r4, ra.ARM_r5,
        ra.ARM_r0].getD k (buf k)) := by
  have he : toInt32 r = r := toInt32_of_fits r (by omega)
  have hn : ¬ r < 0 := by omega
  unfold get_regs_arm
  rw [he, if_neg hn]
  exact Prod.ext rfl (funext fun k => setSlot_eight buf _ _ _ _ _ _ _ _ k)

/-- The failing path of `get_regs`, on each layout: the status is handed
back and the vector is the caller's. -/
theorem get_regs_err (r : Int) (hr : -2 ^ 31 ≤ r ∧ r < 0) (buf : Nat → Int)
    (ri : user_regs_struct_i386) (rx : user_regs_struct_x86_64) (ra : arm_pt_regs) :
    get_regs_i386 r ri buf = (r, buf) ∧ get_regs_x86_64 r rx buf = (r, buf) ∧
      get_regs_arm r ra buf = (r, buf) := by
  have he : toInt32 r = r := toInt32_of_fits r (by omega)
  refine ⟨?_, ?_, ?_⟩
  · unfold get_regs_i386
    rw [he, if_pos hr.2]
  · unfold get_regs_x86_64
    rw [he, if_pos hr.2]
  · unfold get_regs_arm
    rw [he, if_pos hr.2]

theorem slot0_of_eq {p : Int × (Nat → Int)} {r : Int} {buf : Nat → Int}
    {v0 v1 v2 v3 v4 v5 v6 v7 : Int}
    (h : p = (r, fun k => [v0, v1, v2, v3, v4, v5, v6, v7].getD k (buf k))) : p.2 0 = v0 := by
  subst h; rfl

/-- C7. After a successful get-all-registers call (the primitive returned a
non-negative `int` value), slot 0 of the vector holds the syscall-number
register of the layout: `orig_eax` on 32-bit x86, `orig_rax` on 64-bit x86
(converted to `long`: the same 64 bits), `r7` on ARM. -/
theorem get_regs_slot0 (r : Int) (hr : 0 ≤ r ∧ r < 2 ^ 31) (buf : Nat → Int)
    (ri : user_regs_struct_i386) (rx : user_regs_struct_x86_64) (ra : arm_pt_regs) :
    (get_regs_i386 r ri buf).2 0 = ri.orig_eax ∧
    ((get_regs_x86_64 r rx buf).2 0 = toInt64 rx.orig_rax ∧
      (get_regs_x86_64 r rx buf).2 0 % 2 ^ 64 = (rx.orig_rax : Int) % 2 ^ 64) ∧
    (get_regs_arm r ra buf).2 0 = ra.ARM_r7 := by
  have hx := slot0_of_eq (get_regs_x86_64_ok r hr buf rx)
  refine ⟨slot0_of_eq (get_regs_i386_ok r hr buf ri), ⟨hx, ?_⟩,
    slot0_of_eq (get_regs_arm_ok r hr buf ra)⟩
  rw [hx]
  exact toInt64_emod rx.orig_rax

/-- An instance of C7: the primitive returns 0 on the three sample register
files. -/
theorem get_regs_slot0_witness :
    ((0 : Int) ≤ 0 ∧ (0 : Int) < 2 ^ 31) ∧
    ((get_regs_i386 0 sample_i386 (fun _ => 0)).2 0 = sample_i386.orig_eax ∧
      ((get_regs_x86_64 0 sample_x86_64 (fun _ => 0)).2 0 = toInt64 sample_x86_64.orig_rax ∧
        (get_regs_x86_64 0 sample_x86_64 (fun _ => 0)).2 0 % 2 ^ 64
          = (sample_x86_64.orig_rax : Int) % 2 ^ 64) ∧
      (get_regs_arm 0 sample_arm (fun _ => 0)).2 0 = sample_arm.ARM_r7) :=
  ⟨by decide, get_regs_slot0 0 (by decide) (fun _ => 0) sample_i386 sample_x86_64 sample_arm⟩

/-- C8. For every value `r` the get-all-registers primitive returns (a value
an `int` holds), on each layout `get_regs` returns `r` itself; it returns a
negative status exactly when `r` is negative, and then the caller's vector
is unchanged; otherwise slots 0..7 are assigned from the register file and
every other slot is unchanged. -/
theorem get_regs_status (r : Int) (hr : -2 ^ 31 ≤ r ∧ r < 2 ^ 31) (buf : Nat → Int)
    (ri : user_regs_struct_i386) (rx : user_regs_struct_x86_64) (ra : arm_pt_regs) :
    (((get_regs_i386 r ri buf).1 < 0 ↔ r < 0) ∧ (get_regs_i386 r ri buf).1 = r ∧
      (r < 0 → (get_regs_i386 r ri buf).2 = buf) ∧
      (0 ≤ r → ∀ k, (get_regs_i386 r ri buf).2 k =
        [ri.orig_eax, ri.ebx, ri.ecx, ri.edx, ri.esi, ri.edi, ri.ebp, ri.eax].getD k (buf k))) ∧
    (((get_regs_x86_64 r rx buf).1 < 0 ↔ r < 0) ∧ (get_regs_x86_64 r rx buf).1 = r ∧
      (r < 0 → (get_regs_x86_64 r rx buf).2 = buf) ∧
      (0 ≤ r → ∀ k, (get_regs_x86_64 r rx buf).2 k =
        [toInt64 rx.orig_rax, toInt64 rx.rbx, toInt64 rx.rcx, toInt64 rx.rdx, toInt64 rx.rsi,
          toInt64 rx.rdi, toInt64 rx.rbp, toInt64 rx.rax].getD k (buf k))) ∧
    (((get_regs_arm r ra buf).1 < 0 ↔ r < 0) ∧ (get_regs_arm r ra buf).1 = r ∧
      (r < 0 → (get_regs_arm r ra buf).2 = buf) ∧
      (0 ≤ r → ∀ k, (get_regs_arm r ra buf).2 k =
        [ra.ARM_r7, ra.ARM_r0, ra.ARM_r1, ra.ARM_r2, ra.ARM_r3, ra.ARM_r4, ra.ARM_r5,
          ra.ARM_r0].getD k (buf k))) := by
  by_cases hn : r < 0
  · obtain ⟨h1, h2, h3⟩ := get_regs_err r ⟨hr.1, hn⟩ buf ri rx ra
    rw [h1, h2, h3]
    have hc : ¬ (0 ≤ r) := by omega
    exact ⟨⟨Iff.rfl, rfl, fun _ => rfl, fun h => absurd h hc⟩,
      ⟨Iff.rfl, rfl, fun _ => rfl, fun h => absurd h hc⟩,
      ⟨Iff.rfl, rfl, fun _ => rfl, fun h => absurd h hc⟩⟩
  · have hr' : 0 ≤ r ∧ r < 2 ^ 31 := ⟨by omega, hr.2⟩
    rw [get_regs_i386_ok r hr', get_regs_x86_64_ok r hr', get_regs_arm_ok r hr']
    exact ⟨⟨Iff.rfl, rfl, fun h => absurd h hn, fun _ _ => rfl⟩,
      ⟨Iff.rfl, rfl, fun h => absurd h hn, fun _ _ => rfl⟩,
      ⟨Iff.rfl, rfl, fun h => absurd h hn, fun _ _ => rfl⟩⟩

/-- Two instances of C8 on the sample register files: the primitive fails
with -1, and the primitive succeeds with 0. -/
theorem get_regs_status_witness :
    ((-2 ^ 31 : Int) ≤ -1 ∧ (-1 : Int) < 2 ^ 31) ∧
    (get_regs_x86_64 (-1) sample_x86_64 (fun _ => 7)).1 = -1 ∧
    (get_regs_x86_64 (-1) sample_x86_64 (fun _ => 7)).2 = (fun _ => 7) ∧
    (get_regs_x86_64 0 sample_x86_64 (fun _ => 7)).1 = 0 ∧
    (get_regs_x86_64 0 sample_x86_64 (fun _ => 7)).2 8 = 7 :=
  ⟨by decide,
    (get_regs_status (-1) (by decide) (fun _ => 7) sample_i386 sample_x86_64 sample_arm).2.1.2.1,
    (get_regs_status (-1) (by decide) (fun _ => 7) sample_i386 sample_x86_64 sample_arm).2.1.2.2.1
      (by decide),
    (get_regs_status 0 (by decide) (fun _ => 7) sample_i386 sample_x86_64 sample_arm).2.1.2.1,
    (get_regs_status 0 (by decide) (fun _ => 7) sample_i386 sample_x86_64 sample_arm).2.1.2.2.2
      (by decide) 8⟩

/-! ## The syscall interpreter `interpret_syscall` -/

/-- A `snprintf` into a buffer that has room for the text and its NUL leaves
exactly the text, NUL-terminated, at the start of the buffer. -/
theorem firstChars_snprintf (buf : Nat → Char) (size : Nat) (text : List Char)
    (h : text.length < size) :
    firstChars (snprintf buf size text) (text.length + 1) = text ++ [Char.ofNat 0] := by
  have hs : ¬ size = 0 := by omega
  have hm : min text.length (size - 1) = text.length := by omega
  simp only [snprintf, if_neg hs, hm, firstChars]
  apply List.ext_getElem
  · simp
  · intro n h1 h2
    simp only [List.length_map, List.length_range] at h1
    simp only [List.getElem_map, List.getElem_range]
    by_cases hn : n < text.length
    · rw [if_pos hn, List.getElem_append_left hn, List.getD_eq_getElem _ _ hn]
    · have hn' : n = text.length := by omega
      subst hn'
      simp

/-- C9 as stated fails on the 64-bit x86 layout: with slot 0 holding
`2^32 + 500 = 4294967796`, which is none of the three ids, and a buffer of
64 characters, the buffer does not hold `"sys call - 4294967796"`; it holds
`"sys call - 500"`. -/
theorem interpret_syscall_fallback_not_slot0 :
    ¬ (∀ (ids : SyscallIds) (h : Handlers) (reg_array : Nat → Int) (child : Int)
        (buf : Nat → Char) (len : Nat),
        reg_array 0 ≠ ids.SYS_write → reg_array 0 ≠ ids.SYS_read →
        reg_array 0 ≠ ids.SYS_open →
        ("sys call - ".toList ++ decimal (reg_array 0)).length < len →
        firstChars (interpret_syscall ids h reg_array child buf len).2
            (("sys call - ".toList ++ decimal (reg_array 0)).length + 1)
          = "sys call - ".toList ++ decimal (reg_array 0) ++ [Char.ofNat 0]) := by
  intro hall
  have h := hall SyscallIds.x86_64
    { interpret_write := fun _ _ b _ => b, interpret_read := fun _ _ b _ => b,
      interpret_open := fun _ _ b _ => b }
    (fun _ => 4294967796) 0 (fun _ => 'x') 64 (by decide) (by decide) (by decide) (by decide)
  revert h
  decide

/-- C9, amended. Let `n` be slot 0 converted to `int`. If `n` is none of
`SYS_write`, `SYS_read`, `SYS_open` and the buffer has room for the text and
its NUL, then after `interpret_syscall` the buffer starts with exactly
`"sys call - "` followed by `n` in decimal and a NUL. -/
theorem interpret_syscall_fallback (ids : SyscallIds) (h : Handlers)
    (reg_array : Nat → Int) (child : Int) (buf : Nat → Char) (len : Nat)
    (hw : toInt32 (reg_array 0) ≠ ids.SYS_write)
    (hr : toInt32 (reg_array 0) ≠ ids.SYS_read)
    (ho : toInt32 (reg_array 0) ≠ ids.SYS_open)
    (hcap : ("sys call - ".toList ++ decimal (toInt32 (reg_array 0))).length < len) :
    firstChars (interpret_syscall ids h reg_array child buf len).2
        (("sys call - ".toList ++ decimal (toInt32 (reg_array 0))).length + 1)
      = "sys call - ".toList ++ decimal (toInt32 (reg_array 0)) ++ [Char.ofNat 0] := by
  unfold interpret_syscall
  generalize toInt32 (reg_array 0) = n at hw hr ho hcap ⊢
  simp only [if_neg hw, if_neg hr, if_neg ho]
  exact firstChars_snprintf buf len _ hcap

/-- An instance of the amended C9 on the 64-bit x86 ids: slot 0 holds 39
(`getpid`), the buffer has 32 characters. -/
theorem interpret_syscall_fallback_witness :
    toInt32 39 ≠ SyscallIds.x86_64.SYS_write ∧ toInt32 39 ≠ SyscallIds.x86_64.SYS_read ∧
    toInt32 39 ≠ SyscallIds.x86_64.SYS_open ∧
    ("sys call - ".toList ++ decimal (toInt32 39)).length < 32 ∧
    firstChars (interpret_syscall SyscallIds.x86_64
        { interpret_write := fun _ _ b _ => b, interpret_read := fun _ _ b _ => b,
          interpret_open := fun _ _ b _ => b }
        (fun _ => 39) 0 (fun _ => 'x') 32).2
        (("sys call - ".toList ++ decimal (toInt32 39)).length + 1)
      = "sys call - ".toList ++ decimal (toInt32 39) ++ [Char.ofNat 0] :=
  ⟨by decide, by decide, by decide, by decide,
    interpret_syscall_fallback SyscallIds.x86_64
      { interpret_write := fun _ _ b _ => b, interpret_read := fun _ _ b _ => b,
        interpret_open := fun _ _ b _ => b }
      (fun _ => 39) 0 (fun _ => 'x') 32 (by decide) (by decide) (by decide) (by decide)⟩

/-- C14. `interpret_syscall` returns 0 for every register vector, tracee
handle, buffer and capacity, whatever the ids of the target and whatever the
three handlers leave in the buffer. -/
theorem interpret_syscall_returns_zero (ids : SyscallIds) (h : Handlers)
    (reg_array : Nat → Int) (child : Int) (buf : Nat → Char) (len : Nat) :
    (interpret_syscall ids h reg_array child buf len).1 = 0 := by
  unfold interpret_syscall
  generalize toInt32 (reg_array 0) = n
  by_cases hw : n = ids.SYS_write
  · simp only [if_pos hw]
  · by_cases hr : n = ids.SYS_read
    · simp only [if_neg hw, if_pos hr]
    · by_cases ho : n = ids.SYS_open
      · simp only [if_neg hw, if_neg hr, if_pos ho]
      · simp only [if_neg hw, if_neg hr, if_neg ho]

/-- The conversion to `int` depends only on the value modulo `2^32`. -/
theorem toInt32_congr (x y : Int) (h : x % 2 ^ 32 = y % 2 ^ 32) : toInt32 x = toInt32 y := by
  unfold toInt32
  omega

/-- What `interpret_syscall` leaves in the buffer, by the arm of the switch. -/
theorem interpret_syscall_by_arm (ids : SyscallIds) (h : Handlers)
    (reg_array : Nat → Int) (child : Int) (buf : Nat → Char) (len : Nat) :
    (interpret_syscall ids h reg_array child buf len).2 =
      match switchArm ids reg_array with
      | SwitchArm.case_SYS_write => h.interpret_write reg_array child buf len
      | SwitchArm.case_SYS_read => h.interpret_read reg_array child buf len
      | SwitchArm.case_SYS_open => h.interpret_open reg_array child buf len
      | SwitchArm.case_default n => snprintf buf len ("sys call - ".toList ++ decimal n) := by
  unfold interpret_syscall switchArm
  generalize toInt32 (reg_array 0) = n
  by_cases hw : n = ids.SYS_write
  · simp only [if_pos hw]
  · by_cases hr : n = ids.SYS_read
    · simp only [if_neg hw, if_pos hr]
    · by_cases ho : n = ids.SYS_open
      · simp only [if_neg hw, if_neg hr, if_pos ho]
      · simp only [if_neg hw, if_neg hr, if_neg ho]

/-- C18. The arm of the switch and the number the fallback prints depend
only on the low 32 bits of slot 0: for two register vectors whose slot 0
values are congruent modulo `2^32` the same arm is selected, with the same
number in the `default` arm, and when that arm is the `default` one the two
calls leave the same text in the buffer. -/
theorem interpret_syscall_low_32_bits (ids : SyscallIds) (h : Handlers)
    (r1 r2 : Nat → Int) (child : Int) (buf : Nat → Char) (len : Nat)
    (hcong : r1 0 % 2 ^ 32 = r2 0 % 2 ^ 32) :
    switchArm ids r1 = switchArm ids r2 ∧
    ∀ n, switchArm ids r1 = SwitchArm.case_default n →
      (interpret_syscall ids h r1 child buf len).2
          = snprintf buf len ("sys call - ".toList ++ decimal n) ∧
      (interpret_syscall ids h r2 child buf len).2
          = snprintf buf len ("sys call - ".toList ++ decimal n) := by
  have he : toInt32 (r1 0) = toInt32 (r2 0) := toInt32_congr _ _ hcong
  have harm : switchArm ids r1 = switchArm ids r2 := by
    unfold switchArm
    rw [he]
  refine ⟨harm, fun n hn => ?_⟩
  have hn2 : switchArm ids r2 = SwitchArm.case_default n := harm ▸ hn
  rw [interpret_syscall_by_arm, interpret_syscall_by_arm, hn, hn2]
  exact ⟨rfl, rfl⟩

/-- An instance of C18 on the 64-bit x86 ids: slot 0 holds 500 in one vector
and `2^32 + 500` in the other; both calls take the `default` arm with the
number 500. -/
theorem interpret_syscall_low_32_bits_witness :
    ((500 : Int) % 2 ^ 32 = 4294967796 % 2 ^ 32) ∧
    (switchArm SyscallIds.x86_64 (fun _ => 500)
        = switchArm SyscallIds.x86_64 (fun _ => 4294967796) ∧
      ∀ n, switchArm SyscallIds.x86_64 (fun _ => 500) = SwitchArm.case_default n →
        (interpret_syscall SyscallIds.x86_64
            { interpret_write := fun _ _ b _ => b, interpret_read := fun _ _ b _ => b,
              interpret_open := fun _ _ b _ => b }
            (fun _ => 500) 0 (fun _ => 'x') 32).2
            = snprintf (fun _ => 'x') 32 ("sys call - ".toList ++ decimal n) ∧
        (interpret_syscall SyscallIds.x86_64
            { interpret_write := fun _ _ b _ => b, interpret_read := fun _ _ b _ => b,
              interpret_open := fun _ _ b _ => b }
            (fun _ => 4294967796) 0 (fun _ => 'x') 32).2
            = snprintf (fun _ => 'x') 32 ("sys call - ".toList ++ decimal n)) :=
  ⟨by decide,
    interpret_syscall_low_32_bits SyscallIds.x86_64
      { interpret_write := fun _ _ b _ => b, interpret_read := fun _ _ b _ => b,
        interpret_open := fun _ _ b _ => b }
      (fun _ => 500) (fun _ => 4294967796) 0 (fun _ => 'x') 32 (by decide)⟩

/-- C11. The stores of the unbounded reader are not confined to offsets
below `len` when no terminator is found and `len` is not a multiple of the
word size: with word size 8 and `len = 5` over the tracee bytes
`"hello world"` the call returns -1 after storing a whole word at offsets
`0 .. 7`; with `len = 1` likewise. -/
theorem get_string_data_unbounded_writes_past_len :
    (get_string_data_unbounded 8
        (memOf 4096 [104, 101, 108, 108, 111, 32, 119, 111, 114, 108, 100] 0)
        4096 (Tracer.fresh 66) 5).1 = -1 ∧
    (get_string_data_unbounded 8
        (memOf 4096 [104, 101, 108, 108, 111, 32, 119, 111, 114, 108, 100] 0)
        4096 (Tracer.fresh 66) 5).2.written = [0, 1, 2, 3, 4, 5, 6, 7] ∧
    (get_string_data_unbounded 8
        (memOf 4096 [104, 101, 108, 108, 111, 32, 119, 111, 114, 108, 100] 0)
        4096 (Tracer.fresh 66) 1).2.written = [0, 1, 2, 3, 4, 5, 6, 7] := by
  decide

/-! ## The word reads of the memory readers -/

theorem map_range_succ_cons {α : Type} (g : Nat → α) (n : Nat) :
    (List.range (n + 1)).map g = g 0 :: (List.range n).map (fun k => g (k + 1)) := by
  rw [List.range_succ_eq_map]
  simp [List.map_map, Function.comp_def]

theorem store_peeked (s : Tracer) (off : Int) (b : Byte) :
    (store s off b).peeked = s.peeked := rfl

theorem memcpy_peeked (s : Tracer) (laddr : Int) (chars : Nat → Byte) (n : Nat) :
    (memcpy s laddr chars n).peeked = s.peeked := by
  induction n with
  | zero => rfl
  | succ n ih => simpa [memcpy, store] using ih

/-- The addresses peeked by one pass of a word loop: the `n` consecutive
words from `i * W + addr` on. -/
theorem copyWords_peeked (W : Nat) (child : Int → Byte) (addr : Int) (n : Nat) :
    ∀ l : Locals, (copyWords W child addr n l).tr.peeked =
      l.tr.peeked ++ (List.range n).map (fun k : Nat => (l.i + (k : Int)) * (W : Int) + addr) := by
  induction n with
  | zero => intro l; simp [copyWords]
  | succ n ih =>
    intro l
    simp only [copyWords]
    rw [ih, map_range_succ_cons, memcpy_peeked]
    simp only [PTRACE_PEEKDATA, List.append_assoc, List.singleton_append, Nat.cast_zero,
      add_zero]
    congr 2
    apply List.map_congr_left
    intro k _
    push_cast
    ring

/-- The addresses peeked by the scanning loop, however it ends: on the early
return, the first `m` words for some `1 ≤ m ≤ n`; on falling out of the
loop, all `n` words. -/
theorem scanWords_peeked (W : Nat) (child : Int → Byte) (addr : Int) (n : Nat) :
    ∀ l : Locals,
      (∀ t, scanWords W child addr n l = .error t →
        ∃ m, m ≤ n ∧ t.peeked =
          l.tr.peeked ++ (List.range m).map (fun k : Nat => (l.i + (k : Int)) * (W : Int) + addr)) ∧
      (∀ l', scanWords W child addr n l = .ok l' → l' = copyWords W child addr n l) := by
  induction n with
  | zero =>
    intro l
    refine ⟨fun t ht => ?_, fun l' hl' => ?_⟩
    · simp [scanWords] at ht
    · simp only [scanWords, Except.ok.injEq] at hl'
      rw [← hl']; rfl
  | succ n ih =>
    intro l
    cases hscan : scanZero (PTRACE_PEEKDATA child (l.i * (W : Int) + addr) l.tr).1 W with
    | some k =>
      refine ⟨fun t ht => ?_, fun l' hl' => ?_⟩
      · simp only [scanWords, hscan, Except.error.injEq] at ht
        refine ⟨1, by omega, ?_⟩
        rw [← ht, memcpy_peeked]
        simp [PTRACE_PEEKDATA, List.range_succ]
      · simp [scanWords, hscan] at hl'
    | none =>
      obtain ⟨h1, h2⟩ := ih
        { i := l.i + 1, laddr := l.laddr + (W : Int),
          tr := memcpy (PTRACE_PEEKDATA child (l.i * (W : Int) + addr) l.tr).2 l.laddr
                  (PTRACE_PEEKDATA child (l.i * (W : Int) + addr) l.tr).1 W }
      refine ⟨fun t ht => ?_, fun l' hl' => ?_⟩
      · simp only [scanWords, hscan] at ht
        obtain ⟨m, hm, hp⟩ := h1 t ht
        refine ⟨m + 1, by omega, ?_⟩
        rw [hp, map_range_succ_cons, memcpy_peeked]
        simp only [PTRACE_PEEKDATA, List.append_assoc, List.singleton_append, Nat.cast_zero,
          add_zero]
        congr 2
        apply List.map_congr_left
        intro k _
        push_cast
        ring
      · simp only [scanWords, hscan] at hl'
        rw [h2 l' hl']
        rfl

theorem ceil_div_split (q r W : Nat) (hr : r < W) :
    (q * W + r + W - 1) / W = q + (if r = 0 then 0 else 1) := by
  by_cases hz : r = 0
  · subst hz
    simp only [if_true, add_zero]
    exact Nat.div_eq_of_lt_le (by omega) (by rw [Nat.succ_mul]; omega)
  · simp only [hz, if_false]
    exact Nat.div_eq_of_lt_le (by rw [Nat.succ_mul]; omega)
      (by rw [Nat.succ_mul, Nat.succ_mul]; omega)

theorem toNat_split (q r W : Nat) :
    ((q : Int) * (W : Int) + (r : Int)).toNat = q * W + r := by
  have : (q : Int) * (W : Int) + (r : Int) = ((q * W + r : Nat) : Int) := by push_cast; ring
  rw [this, Int.toNat_ofNat]

/-- The addresses peeked by `get_string_data` with `len = q * W + r`. -/
theorem get_string_data_peeked_split (W : Nat) (child : Int → Byte) (addr : Int) (s : Tracer)
    (q r : Nat) (hr : r < W) :
    (get_string_data W child addr s ((q : Int) * (W : Int) + (r : Int))).peeked =
      s.peeked ++ (List.range (q + (if r = 0 then 0 else 1))).map
        (fun i : Nat => addr + (i : Int) * (W : Int)) := by
  have hW : 0 < W := by omega
  have hlen : (0 : Int) ≤ (q : Int) * (W : Int) + (r : Int) := by positivity
  obtain ⟨q', r', hq', hr', hlt, hsum⟩ := len_split W _ hW hlen
  have hqW : (0 : Int) ≤ (q : Int) * (W : Int) := by positivity
  have hdiv : ((q : Int) * (W : Int) + (r : Int)) / (W : Int) = (q : Int) := by
    have hWp : (W : Int) ≠ 0 := by omega
    rw [Int.add_comm, Int.add_mul_ediv_right _ _ hWp, Int.ediv_eq_zero_of_lt (by omega) (by omega)]
    simp
  have hqq : q' = q := by
    have := Int.tdiv_eq_ediv hlen (Int.ofNat_nonneg W)
    rw [hq', hdiv] at this
    exact_mod_cast this
  subst hqq
  have hrr : r' = r := by omega
  subst hrr
  obtain ⟨hi, _, _⟩ := copyWords_init W child addr q' s
  have hpk := copyWords_peeked W child addr q' { i := 0, laddr := 0, tr := s }
  have hmap : (List.range q').map (fun k : Nat => ((0 : Int) + (k : Int)) * (W : Int) + addr)
      = (List.range q').map (fun i : Nat => addr + (i : Int) * (W : Int)) := by
    apply List.map_congr_left
    intro k _
    ring
  simp only [get_string_data, hq', hr', Int.toNat_ofNat]
  by_cases hz : r' = 0
  · subst hz
    simp only [Nat.cast_zero, ne_eq, not_true_eq_false, if_false, if_true, add_zero]
    rw [store_peeked, hpk, hmap]
  · have hz' : ¬ ((r' : Int) = 0) := by omega
    simp only [ne_eq, hz', not_false_eq_true, if_true, hz, if_false]
    rw [store_peeked, memcpy_peeked]
    simp only [PTRACE_PEEKDATA]
    rw [hpk, hmap, hi, List.range_succ, List.map_append, List.append_assoc]
    congr 2
    simp only [List.map_cons, List.map_nil]
    congr 1
    ring

/-- C15. `get_string_data(child, addr, str, len)` with `len ≥ 0` issues
exactly `ceil(len / W)` word reads, the `i`-th at tracee address
`addr + i * W` for `i = 0 .. ceil(len / W) - 1` in increasing order; with
`len = 0` it issues none. -/
theorem get_string_data_peeks (W : Nat) (child : Int → Byte) (addr : Int) (s : Tracer)
    (len : Int) (hW : 0 < W) (hlen : 0 ≤ len) :
    (get_string_data W child addr s len).peeked =
      s.peeked ++ (List.range ((len.toNat + W - 1) / W)).map
        (fun i : Nat => addr + (i : Int) * (W : Int)) ∧
    (len = 0 → (get_string_data W child addr s len).peeked = s.peeked) := by
  obtain ⟨q, r, _, _, hr, hsum⟩ := len_split W len hW hlen
  subst hsum
  have h := get_string_data_peeked_split W child addr s q r hr
  refine ⟨?_, fun h0 => ?_⟩
  · rw [h, toNat_split, ceil_div_split q r W hr]
  · have hqW : (0 : Int) ≤ (q : Int) * (W : Int) := by positivity
    have hr0 : r = 0 := by omega
    have hq0 : q = 0 := by
      have h1 : (q : Int) * (W : Int) = 0 := by omega
      have hWp : (W : Int) ≠ 0 := by omega
      have := (mul_eq_zero.mp h1).resolve_right hWp
      exact_mod_cast this
    rw [h, hr0, hq0]
    simp

/-- An instance of C15: word size 4 and `len = 6` from address 100 give two
reads, at 100 and at 104. -/
theorem get_string_data_peeks_witness :
    0 < 4 ∧ (0 : Int) ≤ 6 ∧
    ((get_string_data 4 (memOf 100 [104, 101, 108, 108, 111, 33, 7, 8] 9) 100
        (Tracer.fresh 66) 6).peeked =
      (Tracer.fresh 66).peeked ++ (List.range (((6 : Int).toNat + 4 - 1) / 4)).map
        (fun i : Nat => (100 : Int) + (i : Int) * ((4 : Nat) : Int)) ∧
      ((6 : Int) = 0 →
        (get_string_data 4 (memOf 100 [104, 101, 108, 108, 111, 33, 7, 8] 9) 100
          (Tracer.fresh 66) 6).peeked = (Tracer.fresh 66).peeked)) ∧
    (get_string_data 4 (memOf 100 [104, 101, 108, 108, 111, 33, 7, 8] 9) 100
        (Tracer.fresh 66) 6).peeked = [100, 104] :=
  ⟨by decide, by decide,
    get_string_data_peeks 4 (memOf 100 [104, 101, 108, 108, 111, 33, 7, 8] 9) 100
      (Tracer.fresh 66) 6 (by decide) (by decide),
    by decide⟩

/-- When the first zero byte lies at offset `p` inside the `n` words ahead,
the scanning loop peeks the words up to the one holding that byte and no
further. -/
theorem scanWords_found_peeked (W : Nat) (child : Int → Byte) (addr : Int) (n : Nat) :
    ∀ (l : Locals) (p : Nat), p < n * W →
      child (l.i * (W : Int) + addr + (p : Int)) = 0 →
      (∀ m : Nat, m < p → child (l.i * (W : Int) + addr + (m : Int)) ≠ 0) →
      ∃ t, scanWords W child addr n l = .error t ∧
        t.peeked = l.tr.peeked ++
          (List.range (p / W + 1)).map (fun k : Nat => (l.i + (k : Int)) * (W : Int) + addr) := by
  induction n with
  | zero => intro l p hp; omega
  | succ n ih =>
    intro l p hp h0 hfirst
    by_cases hpW : p < W
    · have hscan : scanZero (PTRACE_PEEKDATA child (l.i * (W : Int) + addr) l.tr).1 W
          = some p := scanZero_eq_some _ W p hpW h0 hfirst
      refine ⟨memcpy (PTRACE_PEEKDATA child (l.i * (W : Int) + addr) l.tr).2 l.laddr
        (PTRACE_PEEKDATA child (l.i * (W : Int) + addr) l.tr).1 (p + 1),
        by simp only [scanWords, hscan], ?_⟩
      rw [memcpy_peeked, Nat.div_eq_of_lt hpW]
      simp [PTRACE_PEEKDATA, List.range_succ]
    · have hW : 0 < W := by
        rcases Nat.eq_zero_or_pos W with h | h
        · subst h; simp at hp
        · exact h
      have hscan : scanZero (PTRACE_PEEKDATA child (l.i * (W : Int) + addr) l.tr).1 W
          = none := scanZero_eq_none _ W (fun m hm => hfirst m (by omega))
      have e : ∀ m : Nat, (l.i + 1) * (W : Int) + addr + (m : Int)
          = l.i * (W : Int) + addr + ((m + W : Nat) : Int) := by
        intro m; push_cast; ring
      obtain ⟨t, ht, hs⟩ := ih
        { i := l.i + 1, laddr := l.laddr + (W : Int),
          tr := memcpy (PTRACE_PEEKDATA child (l.i * (W : Int) + addr) l.tr).2 l.laddr
                  (PTRACE_PEEKDATA child (l.i * (W : Int) + addr) l.tr).1 W }
        (p - W) (by rw [Nat.succ_mul] at hp; omega)
        (by
          show child ((l.i + 1) * (W : Int) + addr + ((p - W : Nat) : Int)) = 0
          rw [e, Nat.sub_add_cancel (by omega)]; exact h0)
        (by
          intro m hm
          show child ((l.i + 1) * (W : Int) + addr + (m : Int)) ≠ 0
          rw [e]; exact hfirst (m + W) (by omega))
      refine ⟨t, by simp only [scanWords, hscan]; exact ht, ?_⟩
      have hdiv : p / W = (p - W) / W + 1 := Nat.div_eq_sub_div hW (by omega)
      rw [hs, hdiv,
        map_range_succ_cons (fun k : Nat => (l.i + (k : Int)) * (W : Int) + addr),
        memcpy_peeked]
      simp only [PTRACE_PEEKDATA, List.append_assoc, List.singleton_append, Nat.cast_zero,
        add_zero]
      congr 2
      apply List.map_congr_left
      intro k _
      push_cast
      ring

theorem tdiv_tmod_split (q r W : Nat) (hr : r < W) :
    Int.tdiv ((q : Int) * (W : Int) + (r : Int)) (W : Int) = (q : Int) ∧
    Int.tmod ((q : Int) * (W : Int) + (r : Int)) (W : Int) = (r : Int) := by
  have hW : 0 < W := by omega
  have hlen : (0 : Int) ≤ (q : Int) * (W : Int) + (r : Int) := by positivity
  obtain ⟨q', r', hq', hr', hlt, hsum⟩ := len_split W _ hW hlen
  have hqW : (0 : Int) ≤ (q : Int) * (W : Int) := by positivity
  have hdiv : ((q : Int) * (W : Int) + (r : Int)) / (W : Int) = (q : Int) := by
    have hWp : (W : Int) ≠ 0 := by omega
    rw [Int.add_comm, Int.add_mul_ediv_right _ _ hWp, Int.ediv_eq_zero_of_lt (by omega) (by omega)]
    simp
  have hqq : q' = q := by
    have := Int.tdiv_eq_ediv hlen (Int.ofNat_nonneg W)
    rw [hq', hdiv] at this
    exact_mod_cast this
  subst hqq
  have hrr : r' = r := by omega
  subst hrr
  exact ⟨hq', hr'⟩

/-- The addresses peeked by `get_string_data_unbounded` with
`len = q * W + r`, by the way the word loop ends. -/
theorem get_string_data_unbounded_peeked_split (W : Nat) (child : Int → Byte) (addr : Int)
    (s : Tracer) (q r : Nat) (hr : r < W) :
    (∀ t, scanWords W child addr q { i := 0, laddr := 0, tr := s } = .error t →
      (get_string_data_unbounded W child addr s ((q : Int) * (W : Int) + (r : Int))).2.peeked
        = t.peeked) ∧
    (∀ l', scanWords W child addr q { i := 0, laddr := 0, tr := s } = .ok l' →
      (get_string_data_unbounded W child addr s ((q : Int) * (W : Int) + (r : Int))).2.peeked
        = s.peeked ++ (List.range (q + (if r = 0 then 0 else 1))).map
            (fun i : Nat => addr + (i : Int) * (W : Int))) := by
  obtain ⟨hq, hrm⟩ := tdiv_tmod_split q r W hr
  refine ⟨fun t ht => ?_, fun l' hl' => ?_⟩
  · simp only [get_string_data_unbounded, hq, Int.toNat_ofNat, ht]
  · have hl := (scanWords_peeked W child addr q { i := 0, laddr := 0, tr := s }).2 l' hl'
    obtain ⟨hi, _, _⟩ := copyWords_init W child addr q s
    have hpk := copyWords_peeked W child addr q { i := 0, laddr := 0, tr := s }
    have hmap : (List.range q).map (fun k : Nat => ((0 : Int) + (k : Int)) * (W : Int) + addr)
        = (List.range q).map (fun i : Nat => addr + (i : Int) * (W : Int)) := by
      apply List.map_congr_left
      intro k _
      ring
    simp only [get_string_data_unbounded, hq, hrm, Int.toNat_ofNat, hl']
    subst hl
    by_cases hz : r = 0
    · subst hz
      simp only [Nat.cast_zero, ne_eq, not_true_eq_false, if_false, if_true, add_zero]
      rw [hpk, hmap]
    · have hz' : ¬ ((r : Int) = 0) := by omega
      have htail : s.peeked ++ (List.range (q + 1)).map
            (fun i : Nat => addr + (i : Int) * (W : Int))
          = (copyWords W child addr q { i := 0, laddr := 0, tr := s }).tr.peeked ++
            [(copyWords W child addr q { i := 0, laddr := 0, tr := s }).i * (W : Int) + addr] := by
        rw [hpk, hmap, hi, List.range_succ, List.map_append, List.append_assoc]
        congr 2
        simp only [List.map_cons, List.map_nil]
        congr 1
        ring
      simp only [ne_eq, hz', not_false_eq_true, if_true, hz, if_false]
      rw [htail]
      cases hsz : scanZero (PTRACE_PEEKDATA child
          ((copyWords W child addr q { i := 0, laddr := 0, tr := s }).i * (W : Int) + addr)
          (copyWords W child addr q { i := 0, laddr := 0, tr := s }).tr).1 r with
      | some k => simp only [memcpy_peeked, PTRACE_PEEKDATA]
      | none => simp only [memcpy_peeked, PTRACE_PEEKDATA]

/-- C16. For `len ≥ 0`, `get_string_data_unbounded` reads consecutive words
from `addr` on (at `addr`, `addr + W`, ...), at most `ceil(len / W)` of them
in every case; and when the first zero byte of the tracee at or after `addr`
lies at offset `p < len` it issues exactly `floor(p / W) + 1` reads: it
stops at the word that holds the terminator. -/
theorem get_string_data_unbounded_peeks (W : Nat) (child : Int → Byte) (addr : Int)
    (s : Tracer) (len : Int) (hW : 0 < W) (hlen : 0 ≤ len) :
    (∃ m, m ≤ (len.toNat + W - 1) / W ∧
      (get_string_data_unbounded W child addr s len).2.peeked =
        s.peeked ++ (List.range m).map (fun i : Nat => addr + (i : Int) * (W : Int))) ∧
    (∀ p : Nat, (p : Int) < len → child (addr + (p : Int)) = 0 →
      (∀ m : Nat, m < p → child (addr + (m : Int)) ≠ 0) →
      (get_string_data_unbounded W child addr s len).2.peeked =
        s.peeked ++ (List.range (p / W + 1)).map
          (fun i : Nat => addr + (i : Int) * (W : Int))) := by
  obtain ⟨q, r, _, _, hr, hsum⟩ := len_split W len hW hlen
  subst hsum
  obtain ⟨herr, hok⟩ := get_string_data_unbounded_peeked_split W child addr s q r hr
  have hmap : ∀ m : Nat,
      (List.range m).map (fun k : Nat => ((0 : Int) + (k : Int)) * (W : Int) + addr)
        = (List.range m).map (fun i : Nat => addr + (i : Int) * (W : Int)) := by
    intro m
    apply List.map_congr_left
    intro k _
    ring
  have hqW : (0 : Int) ≤ (q : Int) * (W : Int) := by positivity
  have hcast : ((q * W : Nat) : Int) = (q : Int) * (W : Int) := by push_cast; ring
  constructor
  · rw [toNat_split, ceil_div_split q r W hr]
    cases hres : scanWords W child addr q { i := 0, laddr := 0, tr := s } with
    | error t =>
      obtain ⟨m, hm, hp⟩ :=
        (scanWords_peeked W child addr q { i := 0, laddr := 0, tr := s }).1 t hres
      exact ⟨m, by omega, by rw [herr t hres, hp, hmap]⟩
    | ok l' => exact ⟨_, le_refl _, hok l' hres⟩
  · intro p hp h0 hfirst
    by_cases hin : p < q * W
    · obtain ⟨t, ht, hs⟩ := scanWords_found_peeked W child addr q
        { i := 0, laddr := 0, tr := s } p hin (by simpa using h0) (by simpa using hfirst)
      rw [herr t ht, hs, hmap]
    · have hnz : ∀ m : Nat, m < q * W →
          child ((0 : Int) * (W : Int) + addr + (m : Int)) ≠ 0 := by
        intro m hm
        simpa using hfirst m (by omega)
      have hloop := scanWords_eq_copyWords W child addr q { i := 0, laddr := 0, tr := s } hnz
      have hr0 : ¬ r = 0 := by omega
      have hdiv : p / W = q :=
        Nat.div_eq_of_lt_le (by omega) (by rw [Nat.succ_mul]; omega)
      rw [hok _ hloop, hdiv]
      simp only [hr0, if_false]

/-- An instance of C16: word size 4, the string `"hello"` at address 100 with
its NUL at offset 5, scanned with `len = 12`: two reads, at 100 and 104,
none at 108. -/
theorem get_string_data_unbounded_peeks_witness :
    0 < 4 ∧ (0 : Int) ≤ 12 ∧ ((5 : Nat) : Int) < 12 ∧
    memOf 100 [104, 101, 108, 108, 111, 0, 7, 8] 9 (100 + ((5 : Nat) : Int)) = 0 ∧
    (∀ m : Nat, m < 5 → memOf 100 [104, 101, 108, 108, 111, 0, 7, 8] 9 (100 + (m : Int)) ≠ 0) ∧
    (get_string_data_unbounded 4 (memOf 100 [104, 101, 108, 108, 111, 0, 7, 8] 9) 100
        (Tracer.fresh 66) 12).2.peeked =
      (Tracer.fresh 66).peeked ++ (List.range (5 / 4 + 1)).map
        (fun i : Nat => (100 : Int) + (i : Int) * ((4 : Nat) : Int)) ∧
    (get_string_data_unbounded 4 (memOf 100 [104, 101, 108, 108, 111, 0, 7, 8] 9) 100
        (Tracer.fresh 66) 12).2.peeked = [100, 104] :=
  ⟨by decide, by decide, by decide, by decide, by decide,
    (get_string_data_unbounded_peeks 4 (memOf 100 [104, 101, 108, 108, 111, 0, 7, 8] 9) 100
      (Tracer.fresh 66) 12 (by decide) (by decide)).2 5 (by decide) (by decide) (by decide),
    by decide⟩

/-! ## The capability probe `test_ptrace_setoptions_for_all` -/

/-- C12. A failed resume or a failed wait does not end the loop. First run:
the resume after the `SIGSTOP` stop fails; after the kill and the message
the loop waits again. Second run: after a `SIGSTOP` stop the next wait fails
with `ECHILD` and leaves `status` as it was (`0x137f`); after the kill and
the message the pass goes on to classify the status, issues
`PTRACE_SETOPTIONS` and `PTRACE_SYSCALL`, and the loop waits again. Both
runs end only at the clean exit that a later wait reports. -/
theorem probe_continues_after_fatal_error :
    test_ptrace_setoptions_for_all 77
        [{ tracee_pid := 77, wait_errno := 0, status := 0x137f, setoptions := 0,
           setoptions_errno := 0, resume := -1 },
         Turn.waited 77 0] =
      (Outcome.returned 1,
        [Event.wait, Event.PTRACE_SETOPTIONS 77, Event.PTRACE_SYSCALL 77,
         Event.kill 77 SIGKILL, Event.printf Message.ptrace_syscall_does_not_work,
         Event.wait, Event.printf Message.test_failed]) ∧
    test_ptrace_setoptions_for_all 77
        [Turn.waited 77 0x137f,
         { tracee_pid := -1, wait_errno := ECHILD, status := 0x137f, setoptions := 0,
           setoptions_errno := 0, resume := 0 },
         Turn.waited 77 0] =
      (Outcome.returned 1,
        [Event.wait, Event.PTRACE_SETOPTIONS 77, Event.PTRACE_SYSCALL 77,
         Event.wait, Event.kill 77 SIGKILL,
         Event.printf (Message.unexpected_wait_result (-1)),
         Event.PTRACE_SETOPTIONS 77, Event.PTRACE_SYSCALL 77,
         Event.wait, Event.printf Message.test_failed]) := by
  decide

/-- C13. An unexpected wait status does not end the loop. First run: the
wait reports a death by signal 9; after the messages and the kill the pass
issues `PTRACE_SYSCALL` (which fails), and the loop waits again and is still
running when the answers are used up. Second run: the wait reports an exit
with status 133 (`0x8500`); after the messages and the kill the pass reads
the exit status as a stop signal, finds it equal to `SIGTRAP | 0x80`, sets
`it_worked`, issues `PTRACE_SYSCALL`, and the loop waits again; the probe
returns 0. -/
theorem probe_continues_after_unexpected_status :
    test_ptrace_setoptions_for_all 77
        [{ tracee_pid := 77, wait_errno := 0, status := 9, setoptions := 0,
           setoptions_errno := 0, resume := -1 },
         { tracee_pid := -1, wait_errno := ECHILD, status := 9, setoptions := 0,
           setoptions_errno := 0, resume := -1 }] =
      (Outcome.still_looping,
        [Event.wait, Event.printf (Message.unexpected_signal 9),
         Event.kill 77 SIGKILL, Event.printf (Message.unexpected_wait_status 9),
         Event.PTRACE_SYSCALL 77, Event.kill 77 SIGKILL,
         Event.printf Message.ptrace_syscall_does_not_work,
         Event.wait, Event.kill 77 SIGKILL,
         Event.printf (Message.unexpected_wait_result (-1)),
         Event.printf (Message.unexpected_signal 9),
         Event.kill 77 SIGKILL, Event.printf (Message.unexpected_wait_status 9),
         Event.PTRACE_SYSCALL 77, Event.kill 77 SIGKILL,
         Event.printf Message.ptrace_syscall_does_not_work]) ∧
    test_ptrace_setoptions_for_all 77 [Turn.waited 78 0x8500, Turn.waited 79 0] =
      (Outcome.returned 0,
        [Event.wait, Event.printf (Message.unexpected_exit_status 133),
         Event.kill 77 SIGKILL, Event.printf (Message.unexpected_wait_status 0x8500),
         Event.PTRACE_SYSCALL 77, Event.wait]) := by
  decide

/-- The loop over genuine stops: each pass goes on to the next wait, and
`it_worked` is set exactly by a stop whose signal is `SIGTRAP | 0x80`,
whatever `PTRACE_SETOPTIONS` and `PTRACE_SYSCALL` answer. -/
theorem probeLoop_genuine_stops (pid : Int) (fin : Turn)
    (hf : ¬ (fin.tracee_pid ≤ 0) ∧ WIFEXITED fin.status = true ∧ WEXITSTATUS fin.status = 0) :
    ∀ (stops : List Turn) (w : Int) (log : List Event),
      (∀ t ∈ stops, ¬ (t.tracee_pid ≤ 0) ∧ WIFSTOPPED t.status = true) →
      (probeLoop pid (stops ++ [fin]) w log).1 =
        some (if ∃ t ∈ stops, WSTOPSIG t.status = SIGTRAP + 128 then 1 else w) := by
  intro stops
  induction stops with
  | nil =>
    intro w log _
    have h1 : ¬ (fin.tracee_pid ≤ 0 ∧ fin.wait_errno = EINTR) := fun h => hf.1 h.1
    simp [probeLoop, h1, hf.1, hf.2.1, hf.2.2]
  | cons t rest ih =>
    intro w log hs
    obtain ⟨ht1, ht2⟩ := hs t (List.mem_cons_self t rest)
    have hrest : ∀ u ∈ rest, ¬ (u.tracee_pid ≤ 0) ∧ WIFSTOPPED u.status = true :=
      fun u hu => hs u (List.mem_cons_of_mem t hu)
    have h1 : ¬ (t.tracee_pid ≤ 0 ∧ t.wait_errno = EINTR) := fun h => ht1 h.1
    have h2 : ¬ (WIFEXITED t.status = true ∧ WEXITSTATUS t.status = 0) := by
      intro h
      have ha : t.status % 256 = 127 := by simpa [WIFSTOPPED] using ht2
      have hb : t.status % 128 = 0 := by simpa [WIFEXITED, WTERMSIG] using h.1
      omega
    show (probeLoop pid (t :: (rest ++ [fin])) w log).1 = _
    simp only [probeLoop, h1, if_false, h2]
    rw [ih _ _ hrest]
    by_cases hsig : WSTOPSIG t.status = SIGTRAP + 128
    · have hex : ∃ u ∈ t :: rest, WSTOPSIG u.status = SIGTRAP + 128 :=
        ⟨t, List.mem_cons_self t rest, hsig⟩
      rw [if_pos hsig, if_pos hex]
      by_cases hex' : ∃ u ∈ rest, WSTOPSIG u.status = SIGTRAP + 128
      · rw [if_pos hex']
      · rw [if_neg hex']
    · rw [if_neg hsig]
      by_cases hex' : ∃ u ∈ rest, WSTOPSIG u.status = SIGTRAP + 128
      · have hex : ∃ u ∈ t :: rest, WSTOPSIG u.status = SIGTRAP + 128 := by
          obtain ⟨u, hu, husig⟩ := hex'
          exact ⟨u, List.mem_cons_of_mem t hu, husig⟩
        rw [if_pos hex', if_pos hex]
      · have hex : ¬ ∃ u ∈ t :: rest, WSTOPSIG u.status = SIGTRAP + 128 := by
          rintro ⟨u, hu, husig⟩
          rcases List.mem_cons.mp hu with h | h
          · exact hsig (h ▸ husig)
          · exact hex' ⟨u, h, husig⟩
        rw [if_neg hex', if_neg hex]

/-- Over successful waits that report genuine stops and then a clean exit,
the probe returns 0 exactly when one of the stops has the signal
`SIGTRAP | 0x80`, and 1 otherwise, whatever `PTRACE_SETOPTIONS` and
`PTRACE_SYSCALL` answer. -/
theorem probe_result_over_genuine_stops (pid : Int) (hpid : pid ≠ 0) (stops : List Turn)
    (fin : Turn)
    (hs : ∀ t ∈ stops, ¬ (t.tracee_pid ≤ 0) ∧ WIFSTOPPED t.status = true)
    (hf : ¬ (fin.tracee_pid ≤ 0) ∧ WIFEXITED fin.status = true ∧ WEXITSTATUS fin.status = 0) :
    (test_ptrace_setoptions_for_all pid (stops ++ [fin])).1 =
      Outcome.returned (if ∃ t ∈ stops, WSTOPSIG t.status = SIGTRAP + 128 then 0 else 1) := by
  have h := probeLoop_genuine_stops pid fin hf stops 0
    (if pid < 0 then [Event.printf Message.fork] else []) hs
  unfold test_ptrace_setoptions_for_all
  simp only [if_neg hpid]
  generalize probeLoop pid (stops ++ [fin]) 0
    (if pid < 0 then [Event.printf Message.fork] else []) = res at h
  obtain ⟨w, log⟩ := res
  simp only at h
  subst h
  by_cases hex : ∃ t ∈ stops, WSTOPSIG t.status = SIGTRAP + 128
  · simp [hex]
  · simp [hex]

/-- C17. The probe can return 0 without any genuine stop: here the first
wait reports the exit of a process with status 133 (`0x8500`, not a stop)
and the second a clean exit; no status in the sequence satisfies
`WIFSTOPPED`, and the probe returns 0, because the pass over the first
status reads its exit status as the stop signal `SIGTRAP | 0x80`. -/
theorem probe_accepts_exit_status_133 :
    WIFSTOPPED 0x8500 = false ∧ WIFEXITED 0x8500 = true ∧ WEXITSTATUS 0x8500 = 133 ∧
    WIFSTOPPED 0 = false ∧ WIFEXITED 0 = true ∧ WEXITSTATUS 0 = 0 ∧
    (test_ptrace_setoptions_for_all 77 [Turn.waited 78 0x8500, Turn.waited 79 0]).1
      = Outcome.returned 0 := by
  decide

end Myptrace
